import Mathlib

/-!
Verification of the entry-lookup and match core of the rbw command-line
vault client (source: src/bin/rbw/commands.rs).

The development shallowly embeds the relevant Rust functions as Lean
definitions.  External crates (url, uuid, base32, totp-lite, regex) are not
part of the repository; where a claim depends on them they are modelled from
the specification's description of their behaviour, restricted to the ASCII
inputs the claims exercise, and each such model carries a doc comment saying
so.  Regex matching and the HOTP compute step are taken as opaque function
parameters, since no claim depends on their internals.
-/

namespace Rbw

/-! ## String helpers

Rust str operations used by the source (contains, starts_with, ends_with,
to_lowercase, trim) modelled on the character list of a Lean String.
charLower models Rust to_lowercase on ASCII input (the only inputs the
claims exercise; Rust is full Unicode there).
-/

/-- Is the char list p a prefix of the first argument? (Rust str::starts_with.) -/
def startsWithSeq : List Char → List Char → Bool
  | _, [] => true
  | [], _ :: _ => false
  | a :: h, b :: t => a = b && startsWithSeq h t

/-- Does the first char list contain the second as a contiguous run?
(Rust str::contains with a string pattern.) -/
def containsSeq : List Char → List Char → Bool
  | [], s => s.isEmpty
  | a :: h, s => startsWithSeq (a :: h) s || containsSeq h s

/-- Rust str::contains. -/
def strContains (hay sub : String) : Bool := containsSeq hay.data sub.data

/-- Rust str::starts_with. -/
def strStartsWith (s pre : String) : Bool := startsWithSeq s.data pre.data

/-- Rust str::ends_with. -/
def strEndsWith (s suf : String) : Bool := startsWithSeq s.data.reverse suf.data.reverse

/-- ASCII lower-casing of one character (model of Rust char lower-casing on
the ASCII subset). -/
def charLower (c : Char) : Char :=
  if h : 65 ≤ c.toNat ∧ c.toNat ≤ 90 then
    Char.ofNatAux (c.toNat + 32) (Or.inl (by omega))
  else c

/-- Model of Rust str::to_lowercase restricted to ASCII input. -/
def strToLower (s : String) : String := ⟨s.data.map charLower⟩

/-- ASCII whitespace (the subset of Rust char::is_whitespace the claims use). -/
def isWs (c : Char) : Bool := c = ' ' || c = '\t' || c = '\n' || c = '\r'

/-- Model of Rust str::trim on ASCII input. -/
def trimChars (cs : List Char) : List Char :=
  ((cs.dropWhile isWs).reverse.dropWhile isWs).reverse

/-- Model of Rust str::trim on ASCII input, at String type. -/
def rustTrim (s : String) : String := ⟨trimChars s.data⟩

/-- Rust slice join(", ") as used for the ambiguity message. -/
def joinComma : List String → String
  | [] => ""
  | [s] => s
  | s :: rest => s ++ ", " ++ joinComma rest

/-- Parse a nonempty all-digit char list as a Nat (helper for Rust str::parse). -/
def parseDigits : List Char → Option Nat
  | [] => none
  | cs =>
    if cs.all (fun c => c.isDigit) then
      some (cs.foldl (fun acc c => acc * 10 + (c.toNat - 48)) 0)
    else none

/-- Model of Rust str::parse::<u32> (optional leading plus sign, decimal, bounded). -/
def parseU32 (s : String) : Option Nat :=
  let cs := match s.data with
    | '+' :: r => r
    | r => r
  match parseDigits cs with
  | some n => if n < 2 ^ 32 then some n else none
  | none => none

/-- Model of Rust str::parse::<u64> (optional leading plus sign, decimal, bounded). -/
def parseU64 (s : String) : Option Nat :=
  let cs := match s.data with
    | '+' :: r => r
    | r => r
  match parseDigits cs with
  | some n => if n < 2 ^ 64 then some n else none
  | none => none

/-! ## Basic lemmas about the string helpers -/

theorem startsWithSeq_refl (l : List Char) : startsWithSeq l l = true := by
  induction l with
  | nil => rfl
  | cons a h ih => simp [startsWithSeq, ih]

theorem containsSeq_refl (l : List Char) : containsSeq l l = true := by
  cases l with
  | nil => rfl
  | cons a h => simp [containsSeq, startsWithSeq_refl]

theorem containsSeq_append_right (x y : List Char) : containsSeq (x ++ y) y = true := by
  induction x with
  | nil => simpa using containsSeq_refl y
  | cons a h ih => simp [containsSeq, ih]

theorem strContains_refl (s : String) : strContains s s = true :=
  containsSeq_refl s.data

/-! ## URL model

Modelled from the spec: the url crate's Url type (an external collaborator,
spec section 4.3 and 4.4), restricted to the subset of WHATWG URL parsing the
claims exercise: absolute ASCII URLs of the form scheme://host[:port]path[?query]
and opaque non-special URLs scheme:path.  The parser normalises scheme and
host to lower case and drops a port equal to the scheme's default, exactly as
the url crate does (url.port() is None for an explicit default port).
Percent-decoding is not modelled (no claim input uses it); userinfo,
fragments and IP-literal hosts are outside the modelled subset.
-/

structure Url where
  scheme : String
  host : Option String
  port : Option Nat
  path : String
  query : Option String
  deriving Repr, DecidableEq

/-- Default port of the special schemes (url crate's known default ports). -/
def defaultPort : String → Option Nat
  | "http" => some 80
  | "https" => some 443
  | "ws" => some 80
  | "wss" => some 443
  | "ftp" => some 21
  | _ => none

/-- Special (hierarchical) schemes of the WHATWG URL standard. -/
def specialScheme (s : String) : Bool :=
  s = "http" || s = "https" || s = "ws" || s = "wss" || s = "ftp" || s = "file"

/-- Characters allowed in a URL scheme after the first (which must be a letter). -/
def schemeChar (c : Char) : Bool :=
  c.isAlpha || c.isDigit || c = '+' || c = '-' || c = '.'

/-- Model of url::Url::parse on the subset described at Url. Returns none where
the crate returns a parse error (in particular for strings with no scheme
separator, the RelativeUrlWithoutBase error). -/
def parseUrl (s : String) : Option Url :=
  let cs := (s.data.takeWhile (fun c => c ≠ '#'))
  let sch := cs.takeWhile schemeChar
  let rest := cs.dropWhile schemeChar
  match sch, rest with
  | [], _ => none
  | _, [] => none
  | c0 :: _, ':' :: afterColon =>
    if c0.isAlpha then
      let scheme : String := ⟨sch.map charLower⟩
      match afterColon with
      | '/' :: '/' :: afterSlashes =>
        let authority := afterSlashes.takeWhile (fun c => c ≠ '/' && c ≠ '?')
        let afterAuth := afterSlashes.dropWhile (fun c => c ≠ '/' && c ≠ '?')
        let hostCs := authority.takeWhile (fun c => c ≠ ':')
        let portCs := authority.dropWhile (fun c => c ≠ ':')
        if hostCs.isEmpty then none
        else
          let host : String := ⟨hostCs.map charLower⟩
          let port : Option Nat :=
            match portCs with
            | ':' :: ds => parseDigits ds
            | _ => none
          match portCs, port with
          | ':' :: _ :: _, none => none
          | _, _ =>
            let port := if port = defaultPort scheme then none else port
            let pathCs := afterAuth.takeWhile (fun c => c ≠ '?')
            let queryCs := afterAuth.dropWhile (fun c => c ≠ '?')
            let path : String := if pathCs.isEmpty then "/" else ⟨pathCs⟩
            let query : Option String :=
              match queryCs with
              | '?' :: qs => some ⟨qs⟩
              | _ => none
            some ⟨scheme, some host, port, path, query⟩
      | _ =>
        if specialScheme scheme then none
        else
          let pathCs := afterColon.takeWhile (fun c => c ≠ '?')
          let queryCs := afterColon.dropWhile (fun c => c ≠ '?')
          let query : Option String :=
            match queryCs with
            | '?' :: qs => some ⟨qs⟩
            | _ => none
          some ⟨scheme, none, none, ⟨pathCs⟩, query⟩
    else none
  | _, _ => none

/-- Serialisation of a parsed URL (url crate's Url::to_string / as_str on the
modelled subset). -/
def urlToString (u : Url) : String :=
  match u.host with
  | some h =>
    u.scheme ++ "://" ++ h ++
      (match u.port with
       | some p => ":" ++ toString p
       | none => "") ++
      u.path ++
      (match u.query with
       | some q => "?" ++ q
       | none => "")
  | none =>
    u.scheme ++ ":" ++ u.path ++
      (match u.query with
       | some q => "?" ++ q
       | none => "")

/-- Source host_port: host, or host:port when an explicit non-default port is
present (commands.rs, fn host_port). -/
def host_port (u : Url) : Option String :=
  match u.host with
  | none => none
  | some h =>
    some (match u.port with
      | some p => h ++ ":" ++ toString p
      | none => h)

/-- The url crate's Url::domain(): the host string when the host is a domain
(the claims only exercise domain hosts; IP-literal hosts, for which the crate
returns None, are outside the modelled subset). -/
def Url.domain (u : Url) : Option String := u.host

/-- Source domain_port: domain, or domain:port when an explicit non-default
port is present (commands.rs, fn domain_port). -/
def domain_port (u : Url) : Option String :=
  match u.domain with
  | none => none
  | some d =>
    some (match u.port with
      | some p => d ++ ":" ++ toString p
      | none => d)

/-- Split a char list on a separator character (all pieces kept, including
empty ones). -/
def splitOnChar (sep : Char) : List Char → List (List Char)
  | [] => [[]]
  | c :: rest =>
    let r := splitOnChar sep rest
    if c = sep then [] :: r
    else
      match r with
      | [] => [[c]]
      | h :: t => (c :: h) :: t

/-- Split of a raw query string into key-value pairs: model of
Url::query_pairs (split on ampersands, each segment at its first equals sign,
empty segments skipped, plus signs to spaces; percent-decoding not modelled
since no claim input uses it). -/
def queryPairsOfString (q : String) : List (String × String) :=
  (splitOnChar '&' q.data).filterMap (fun seg =>
    if seg.isEmpty then none
    else
      let k := seg.takeWhile (fun c => c ≠ '=')
      let v := seg.dropWhile (fun c => c ≠ '=')
      let v := match v with
        | '=' :: r => r
        | r => r
      some (⟨k.map (fun c => if c = '+' then ' ' else c)⟩,
            ⟨v.map (fun c => if c = '+' then ' ' else c)⟩))

/-- Query pairs of a parsed URL. -/
def queryPairs (u : Url) : List (String × String) :=
  match u.query with
  | none => []
  | some q => queryPairsOfString q

/-- Last value for a key in a pair list: the HashMap collected from
query_pairs keeps the last occurrence of a duplicated key. -/
def queryGet (pairs : List (String × String)) (key : String) : Option String :=
  (pairs.filter (fun p => p.1 = key)).getLast?.map (fun p => p.2)

/-! ## Decrypted data model (commands.rs) -/

/-- rbw::api::UriMatchType. -/
inductive UriMatchType where
  | domain
  | host
  | startsWith
  | exact
  | regularExpression
  | never
  deriving Repr, DecidableEq

/-- rbw::api::FieldType. -/
inductive FieldType where
  | text
  | hidden
  | boolean
  | linked
  deriving Repr, DecidableEq

/-- struct DecryptedUri. -/
structure DecryptedUri where
  uri : String
  match_type : Option UriMatchType
  deriving Repr, DecidableEq

/-- struct DecryptedField. -/
structure DecryptedField where
  name : Option String
  value : Option String
  ty : Option FieldType
  deriving Repr, DecidableEq

/-- struct DecryptedHistoryEntry. -/
structure DecryptedHistoryEntry where
  last_used_date : String
  password : String
  deriving Repr, DecidableEq

/-- enum DecryptedData. -/
inductive DecryptedData where
  | login (username password totp : Option String) (uris : Option (List DecryptedUri))
  | card (cardholder_name number brand exp_month exp_year code : Option String)
  | identity (title first_name middle_name last_name address1 address2 address3
      city state postal_code country phone email ssn license_number
      passport_number username : Option String)
  | secureNote
  deriving Repr, DecidableEq

/-- struct DecryptedCipher. -/
structure DecryptedCipher where
  id : String
  folder : Option String
  name : String
  data : DecryptedData
  fields : List DecryptedField
  notes : Option String
  history : List DecryptedHistoryEntry
  deriving Repr, DecidableEq

/-- A regex engine: pattern to compiled matcher, none on compile failure.
The regex crate is external to the repository, so it is an opaque parameter
of every definition that needs it (no claim depends on its internals). -/
abbrev RegexEngine := String → Option (String → Bool)

/-- DecryptedUri::matches_url (commands.rs lines 785-833). -/
def matches_url (rx : RegexEngine) (u : DecryptedUri) (url : Url) : Bool :=
  match u.match_type.getD .domain with
  | .domain =>
    match domain_port url with
    | none => false
    | some given_domain_port =>
      (match parseUrl u.uri with
       | some self_url =>
         (match domain_port self_url with
          | some self_domain_port =>
            decide (self_url.scheme = url.scheme) &&
              (decide (self_domain_port = given_domain_port) ||
               strEndsWith given_domain_port ("." ++ self_domain_port))
          | none => false)
       | none => false) ||
      (decide (u.uri = given_domain_port) ||
       strEndsWith given_domain_port ("." ++ u.uri))
  | .host =>
    match host_port url with
    | none => false
    | some given_host_port =>
      (match parseUrl u.uri with
       | some self_url =>
         (match host_port self_url with
          | some self_host_port =>
            decide (self_url.scheme = url.scheme) &&
              decide (self_host_port = given_host_port)
          | none => false)
       | none => false) ||
      decide (u.uri = given_host_port)
  | .startsWith => strStartsWith (urlToString url) u.uri
  | .exact => decide (urlToString url = u.uri)
  | .regularExpression =>
    match rx u.uri with
    | none => false
    | some isMatch => isMatch (urlToString url)
  | .never => false

/-- UUIDs, canonically: the uuid crate's parse_str modelled as
canonicalisation to 32 lower-case hex digits (simple and hyphenated forms;
equality of parse results is equality of canonical forms, so case and
hyphenation are irrelevant, per spec section 3). -/
def parseUuid (s : String) : Option String :=
  let cs := s.data
  let isHex := fun (c : Char) =>
    c.isDigit || ('a' ≤ c && c ≤ 'f') || ('A' ≤ c && c ≤ 'F')
  let hex := fun (l : List Char) => l.all isHex
  match splitOnChar '-' cs with
  | [w] => if w.length = 32 && hex w then some ⟨w.map charLower⟩ else none
  | [a, b, c, d, e] =>
    if a.length = 8 && b.length = 4 && c.length = 4 && d.length = 4 &&
        e.length = 12 && hex a && hex b && hex c && hex d && hex e then
      some ⟨(a ++ b ++ c ++ d ++ e).map charLower⟩
    else none
  | _ => none

/-- enum Needle (commands.rs lines 18-23); the Uuid payload is the canonical
UUID string (see parseUuid). -/
inductive Needle where
  | name (s : String)
  | uri (u : Url)
  | uuid (u : String)
  deriving Repr, DecidableEq

/-- DecryptedCipher::display_name (commands.rs lines 500-510). -/
def display_name (c : DecryptedCipher) : String :=
  match c.data with
  | .login (some username) _ _ _ => username ++ "@" ++ c.name
  | _ => c.name

/-- DecryptedCipher::exact_match (commands.rs lines 520-592). -/
def exact_match (rx : RegexEngine) (c : DecryptedCipher) (needle : Needle)
    (username folder : Option String) (try_match_folder ignore_case : Bool) : Bool :=
  (match needle with
   | .name n =>
     (ignore_case && decide (strToLower n = strToLower c.name)) || decide (n = c.name)
   | .uri given_uri =>
     (match c.data with
      | .login _ _ _ (some uris) => uris.any (fun u => matches_url rx u given_uri)
      | _ => false)
   | .uuid u => decide (parseUuid c.id = some u)) &&
  (match username with
   | some given_username =>
     (match c.data with
      | .login (some found_username) _ _ _ => decide (given_username = found_username)
      | _ => false)
   | none => true) &&
  (if try_match_folder then
     match folder, c.folder with
     | some given_folder, some f => decide (given_folder = f)
     | some _, none => false
     | none, some _ => false
     | none, none => true
   else true)

/-- DecryptedCipher::partial_match (commands.rs lines 594-646). -/
def partial_match (c : DecryptedCipher) (name : String)
    (username folder : Option String) (try_match_folder ignore_case : Bool) : Bool :=
  ((ignore_case && strContains (strToLower c.name) (strToLower name)) ||
     strContains c.name name) &&
  (match username with
   | some given_username =>
     (match c.data with
      | .login (some found_username) _ _ _ =>
        (ignore_case &&
           strContains (strToLower found_username) (strToLower given_username)) ||
          strContains found_username given_username
      | _ => false)
   | none => true) &&
  (if try_match_folder then
     match folder, c.folder with
     | some given_folder, some f => strContains f given_folder
     | some _, none => false
     | none, some _ => false
     | none, none => true
   else true)

/-- DecryptedCipher::search_match (commands.rs lines 648-681). -/
def search_match (c : DecryptedCipher) (term : String) (folder : Option String) : Bool :=
  (match folder with
   | some f => decide (c.folder = some f)
   | none => true) &&
  (let base : List (Option String) :=
     [some c.name, c.notes,
      match c.data with
      | .login (some username) _ _ _ => some username
      | _ => none]
   let vals := base.filterMap id ++ c.fields.filterMap (fun f => f.value)
   vals.any (fun s => strContains (strToLower s) (strToLower term)))

/-! ## Entry resolver (find_entry_raw, commands.rs lines 1684-1778)

The resolver works on pairs of a database entry and its decrypted cipher;
the first component is opaque to the matching logic, so it is a type
parameter here.
-/

/-- matches.len() == 1 check plus matches[0]: the single element of a
one-element list. -/
def singleHit {β : Type} : List β → Option β
  | [b] => some b
  | _ => none

/-- The code after the passes (commands.rs lines 1768-1777): no entry found
on an empty final pass, otherwise the ambiguity error joining the display
names of the final pass's candidates. -/
def finishResolve {α : Type} (ms : List (α × DecryptedCipher)) :
    Except String (α × DecryptedCipher) :=
  match ms with
  | [] => .error "no entry found"
  | _ =>
    .error ("multiple entries found: " ++
      joinComma (ms.map (fun p => display_name p.2)))

/-- The partial-match passes 3 and 4 of find_entry_raw (run only for a Name
needle), taking the matches of the last exact pass for the final error. -/
def partialPasses {α : Type} (entries : List (α × DecryptedCipher)) (needle : Needle)
    (username folder : Option String) (ignore_case : Bool)
    (m : List (α × DecryptedCipher)) : Except String (α × DecryptedCipher) :=
  match needle with
  | .name n =>
    let m3 := entries.filter (fun p => partial_match p.2 n username folder true ignore_case)
    match singleHit m3 with
    | some x => .ok x
    | none =>
      match folder with
      | none =>
        let m4 := entries.filter
          (fun p => partial_match p.2 n username folder false ignore_case)
        match singleHit m4 with
        | some x => .ok x
        | none => finishResolve m4
      | some _ => finishResolve m3
  | _ => finishResolve m

/-- fn find_entry_raw (commands.rs lines 1684-1778): up to four filter
passes, returning on the first pass with exactly one hit. -/
def find_entry_raw {α : Type} (rx : RegexEngine)
    (entries : List (α × DecryptedCipher)) (needle : Needle)
    (username folder : Option String) (ignore_case : Bool) :
    Except String (α × DecryptedCipher) :=
  let m1 := entries.filter (fun p => exact_match rx p.2 needle username folder true ignore_case)
  match singleHit m1 with
  | some x => .ok x
  | none =>
    match folder with
    | none =>
      let m2 := entries.filter
        (fun p => exact_match rx p.2 needle username folder false ignore_case)
      match singleHit m2 with
      | some x => .ok x
      | none => partialPasses entries needle username folder ignore_case m2
    | some _ => partialPasses entries needle username folder ignore_case m1

/-! ## The staged resolver of the specification

resolveStaged is written from the words of the specification (spec section
4.5 and the C1 claim): the list of applicable passes in their fixed order,
the unique candidate of the first pass with exactly one match, and after the
passes NotFound or Ambiguous according to the last-tried pass.
-/

/-- Walk the pass results in order: return the unique candidate of the first
pass with exactly one match; after the last pass, settle on the last pass's
matches. -/
def stagedLoop {α : Type} : List (List (α × DecryptedCipher)) →
    Except String (α × DecryptedCipher)
  | [] => .error "no entry found"
  | [m] =>
    (match singleHit m with
     | some x => .ok x
     | none => finishResolve m)
  | m :: rest =>
    (match singleHit m with
     | some x => .ok x
     | none => stagedLoop rest)

/-- The pass list of the specification: (1) exact folder-qualified, (2) exact
folder-ignored only when folder is absent, (3) partial folder-qualified only
when the needle is a Name, (4) partial folder-ignored only when the needle is
a Name and folder is absent. -/
def passList {α : Type} (rx : RegexEngine)
    (entries : List (α × DecryptedCipher)) (needle : Needle)
    (username folder : Option String) (ignore_case : Bool) :
    List (List (α × DecryptedCipher)) :=
  [entries.filter (fun p => exact_match rx p.2 needle username folder true ignore_case)] ++
  (match folder with
   | none =>
     [entries.filter (fun p => exact_match rx p.2 needle username folder false ignore_case)]
   | some _ => []) ++
  (match needle with
   | .name n =>
     [entries.filter (fun p => partial_match p.2 n username folder true ignore_case)] ++
     (match folder with
      | none =>
        [entries.filter (fun p => partial_match p.2 n username folder false ignore_case)]
      | some _ => [])
   | _ => [])

/-- The resolver as the specification words it. -/
def resolveStaged {α : Type} (rx : RegexEngine)
    (entries : List (α × DecryptedCipher)) (needle : Needle)
    (username folder : Option String) (ignore_case : Bool) :
    Except String (α × DecryptedCipher) :=
  stagedLoop (passList rx entries needle username folder ignore_case)

/-- The translated resolver and the specification's staged description agree
on every input (shared helper for the claims about the resolver). -/
theorem find_entry_raw_eq_resolveStaged {α : Type} (rx : RegexEngine)
    (entries : List (α × DecryptedCipher)) (needle : Needle)
    (username folder : Option String) (ignore_case : Bool) :
    find_entry_raw rx entries needle username folder ignore_case =
      resolveStaged rx entries needle username folder ignore_case := by
  cases needle <;> cases folder <;>
    rfl

/-! ## Encrypted database model (rbw::db) and cipher projection

The decrypt primitive is an external collaborator (spec section 1 and 6:
crypto.decrypt(ciphertext, entry_key, org_id) through the agent), so the
projection takes it as a function parameter.
-/

/-- rbw::db::Uri (ciphertext uri plus match type). -/
structure DbUri where
  uri : String
  match_type : Option UriMatchType
  deriving Repr, DecidableEq

/-- rbw::db::Field (all ciphertext except the type). -/
structure DbField where
  name : Option String
  value : Option String
  ty : Option FieldType
  deriving Repr, DecidableEq

/-- rbw::db::HistoryEntry. -/
structure DbHistoryEntry where
  last_used_date : String
  password : String
  deriving Repr, DecidableEq

/-- rbw::db::EntryData (encrypted variant payload). -/
inductive DbEntryData where
  | login (username password totp : Option String) (uris : List DbUri)
  | card (cardholder_name number brand exp_month exp_year code : Option String)
  | identity (title first_name middle_name last_name address1 address2 address3
      city state postal_code country phone email ssn license_number
      passport_number username : Option String)
  | secureNote
  deriving Repr, DecidableEq

/-- rbw::db::Entry. -/
structure DbEntry where
  id : String
  org_id : Option String
  folder : Option String
  folder_id : Option String
  name : String
  data : DbEntryData
  fields : List DbField
  notes : Option String
  history : List DbHistoryEntry
  key : Option String
  deriving Repr, DecidableEq

/-- The external decrypt primitive: ciphertext, optional entry key, optional
organisation id, to plaintext or an error. -/
abbrev Decryptor := String → Option String → Option String → Except String String

/-- Collect a list of fallible results, stopping at the first error
(Rust Iterator::collect into Result of Vec). -/
def collectExcept {α β : Type} (f : α → Except String β) : List α → Except String (List β)
  | [] => .ok []
  | a :: as =>
    match f a with
    | .error e => .error e
    | .ok b =>
      match collectExcept f as with
      | .error e => .error e
      | .ok bs => .ok (b :: bs)

/-- Collect a list of optional results, none if any is none
(Rust Iterator::collect into Option of Vec). -/
def collectOption {α β : Type} (f : α → Option β) : List α → Option (List β)
  | [] => some []
  | a :: as =>
    match f a with
    | none => none
    | some b =>
      match collectOption f as with
      | none => none
      | some bs => some (b :: bs)

/-- Boolean success test for Except. -/
def isOkE {β : Type} : Except String β → Bool
  | .ok _ => true
  | .error _ => false

/-- fn decrypt_field (commands.rs lines 1780-1797): absent stays absent, a
failed decrypt degrades to absent (the warning log is not modelled). -/
def decrypt_field (d : Decryptor) (name : String) (field : Option String)
    (entry_key org_id : Option String) : Option String :=
  match field with
  | none => none
  | some f =>
    match d f entry_key org_id with
    | .ok v => some v
    | .error _ =>
      -- warning including name, never the ciphertext
      let _ := name
      none

/-- Projection of one custom field (the fields closure of decrypt_cipher,
commands.rs lines 1814-1844): a failed decrypt of name or value is an error. -/
def decryptDbField (d : Decryptor) (key org_id : Option String) (f : DbField) :
    Except String DecryptedField :=
  match f.name with
  | none =>
    (match f.value with
     | none => .ok ⟨none, none, f.ty⟩
     | some v => (d v key org_id).map (fun pv => ⟨none, some pv, f.ty⟩))
  | some n =>
    match d n key org_id with
    | .error e => .error e
    | .ok pn =>
      (match f.value with
       | none => .ok ⟨some pn, none, f.ty⟩
       | some v => (d v key org_id).map (fun pv => ⟨some pn, some pv, f.ty⟩))

/-- Projection of one history entry (commands.rs lines 1863-1876): a failed
password decrypt is an error. -/
def decryptHistoryEntry (d : Decryptor) (key org_id : Option String)
    (h : DbHistoryEntry) : Except String DecryptedHistoryEntry :=
  (d h.password key org_id).map (fun p => ⟨h.last_used_date, p⟩)

/-- Projection of the variant payload (commands.rs lines 1878-2087): every
field goes through decrypt_field, so a failed decrypt degrades to absent;
a login's uris collect into an Option, so one failed uri makes the whole
uris list absent. -/
def decryptData (d : Decryptor) (key org_id : Option String) :
    DbEntryData → DecryptedData
  | .login username password totp uris =>
    .login (decrypt_field d "username" username key org_id)
      (decrypt_field d "password" password key org_id)
      (decrypt_field d "totp" totp key org_id)
      (collectOption
        (fun (s : DbUri) =>
          (decrypt_field d "uri" (some s.uri) key org_id).map
            (fun uri => ⟨uri, s.match_type⟩))
        uris)
  | .card cardholder_name number brand exp_month exp_year code =>
    .card (decrypt_field d "cardholder_name" cardholder_name key org_id)
      (decrypt_field d "number" number key org_id)
      (decrypt_field d "brand" brand key org_id)
      (decrypt_field d "exp_month" exp_month key org_id)
      (decrypt_field d "exp_year" exp_year key org_id)
      (decrypt_field d "code" code key org_id)
  | .identity title first_name middle_name last_name address1 address2 address3
      city state postal_code country phone email ssn license_number
      passport_number username =>
    .identity (decrypt_field d "title" title key org_id)
      (decrypt_field d "first_name" first_name key org_id)
      (decrypt_field d "middle_name" middle_name key org_id)
      (decrypt_field d "last_name" last_name key org_id)
      (decrypt_field d "address1" address1 key org_id)
      (decrypt_field d "address2" address2 key org_id)
      (decrypt_field d "address3" address3 key org_id)
      (decrypt_field d "city" city key org_id)
      (decrypt_field d "state" state key org_id)
      (decrypt_field d "postal_code" postal_code key org_id)
      (decrypt_field d "country" country key org_id)
      (decrypt_field d "phone" phone key org_id)
      (decrypt_field d "email" email key org_id)
      (decrypt_field d "ssn" ssn key org_id)
      (decrypt_field d "license_number" license_number key org_id)
      (decrypt_field d "passport_number" passport_number key org_id)
      (decrypt_field d "username" username key org_id)
  | .secureNote => .secureNote

/-- fn decrypt_cipher (commands.rs lines 1799-2102), in the source's
evaluation order: folder (degrades, decrypted with the local key only),
custom fields (error aborts), notes (degrades), history (error aborts),
variant data (degrades fieldwise), name (error aborts). -/
def decrypt_cipher (d : Decryptor) (entry : DbEntry) : Except String DecryptedCipher :=
  let folder :=
    match entry.folder with
    | none => none
    | some f =>
      match d f none none with
      | .ok v => some v
      | .error _ => none
  match collectExcept (decryptDbField d entry.key entry.org_id) entry.fields with
  | .error e => .error e
  | .ok fields =>
    let notes :=
      match entry.notes with
      | none => none
      | some n =>
        match d n entry.key entry.org_id with
        | .ok v => some v
        | .error _ => none
    match collectExcept (decryptHistoryEntry d entry.key entry.org_id) entry.history with
    | .error e => .error e
    | .ok history =>
      let data := decryptData d entry.key entry.org_id entry.data
      match d entry.name entry.key entry.org_id with
      | .error e => .error e
      | .ok name => .ok ⟨entry.id, folder, name, data, fields, notes, history⟩

/-- The Uuid fast path of find_entry (commands.rs lines 1664-1670): linear
scan for the first entry whose id parses to the needle's UUID. -/
def findEntryUuid (d : Decryptor) (u : String) :
    List DbEntry → Except String (DbEntry × DecryptedCipher)
  | [] => .error "no entry found"
  | e :: rest =>
    if parseUuid e.id = some u then
      (decrypt_cipher d e).map (fun c => (e, c))
    else findEntryUuid d u rest

/-- fn find_entry (commands.rs lines 1657-1682). -/
def find_entry (rx : RegexEngine) (d : Decryptor) (db : List DbEntry)
    (needle : Needle) (username folder : Option String) (ignore_case : Bool) :
    Except String (DbEntry × DecryptedCipher) :=
  match needle with
  | .uuid u => findEntryUuid d u db
  | _ =>
    match collectExcept (fun e => (decrypt_cipher d e).map (fun c => (e, c))) db with
    | .error e => .error e
    | .ok ciphers => find_entry_raw rx ciphers needle username folder ignore_case

/-! ## Base32 and TOTP (commands.rs lines 2158-2262)

Modelled from the spec: the base32 crate's decode for the four RFC 4648
alphabets (upper and lower case, padded and unpadded; crate source not in
the repository, behaviour per spec section 4.6).  A padded decode strips up
to six trailing padding characters; leftover bits beyond a whole byte are
dropped.  The HOTP compute step of the totp-lite crate is an opaque function
parameter, as is the clock.
-/

/-- Value of one base32 character in the chosen alphabet (upper-case
RFC 4648 when lower is false, lower-case when true). -/
def b32val (lower : Bool) (c : Char) : Option Nat :=
  let n := c.toNat
  if !lower && 65 ≤ n && n ≤ 90 then some (n - 65)
  else if lower && 97 ≤ n && n ≤ 122 then some (n - 97)
  else if 50 ≤ n && n ≤ 55 then some (n - 50 + 26)
  else none

/-- Pack a list of five-bit values into bytes, most significant bits first,
dropping leftover bits beyond the last whole byte. -/
def b32bytes : List Nat → Nat → Nat → List Nat
  | [], _, _ => []
  | v :: vs, acc, bits =>
    let acc := acc * 32 + v % 32
    let bits := bits + 5
    if 8 ≤ bits then
      (acc / 2 ^ (bits - 8)) % 256 :: b32bytes vs (acc % 2 ^ (bits - 8)) (bits - 8)
    else b32bytes vs acc bits

/-- Strip up to six trailing padding characters (the crate checks at most
six trailing equals signs). -/
def dropTrailingPad (cs : List Char) : List Char :=
  (cs.reverse.drop
    (min 6 (cs.reverse.takeWhile (fun c => c = '=')).length)).reverse

/-- Model of base32::decode for one RFC 4648 alphabet. -/
def b32decode (lower padding : Bool) (s : String) : Option (List Nat) :=
  let cs := if padding then dropTrailingPad s.data else s.data
  match collectOption (b32val lower) cs with
  | none => none
  | some vals => some (b32bytes vals 0 0)

/-- fn decode_totp_secret (commands.rs lines 2165-2179): trim, then try the
four alphabets in the source's order. -/
def decode_totp_secret (secret : String) : Except String (List Nat) :=
  let t := rustTrim secret
  match b32decode false false t with
  | some bs => .ok bs
  | none =>
    match b32decode false true t with
    | some bs => .ok bs
    | none =>
      match b32decode true false t with
      | some bs => .ok bs
      | none =>
        match b32decode true true t with
        | some bs => .ok bs
        | none => .error "totp secret was not valid base32"

/-- struct TotpParams. -/
structure TotpParams where
  secret : List Nat
  algorithm : String
  digits : Nat
  period : Nat
  deriving Repr, DecidableEq

/-- fn parse_totp_secret (commands.rs lines 2181-2227); totp_lite's
DEFAULT_STEP is 30.  The source's evaluation order of the fallible parts
(secret, then digits, then period) is preserved. -/
def parse_totp_secret (secret : String) : Except String TotpParams :=
  match parseUrl secret with
  | some u =>
    if u.scheme ≠ "otpauth" then .error "totp secret url must have otpauth scheme"
    else if u.host ≠ some "totp" then .error "totp secret url must have totp host"
    else
      let q := queryPairs u
      match queryGet q "secret" with
      | none => .error "totp secret url must have secret"
      | some sec =>
        match decode_totp_secret sec with
        | .error e => .error e
        | .ok bytes =>
          match
            (match queryGet q "digits" with
             | some dig =>
               (match parseU32 dig with
                | some n => Except.ok n
                | none =>
                  Except.error "digits parameter in totp url must be a valid integer.")
             | none => (Except.ok 6 : Except String Nat)) with
          | .error e => .error e
          | .ok digits =>
            match
              (match queryGet q "period" with
               | some per =>
                 (match parseU64 per with
                  | some n => Except.ok n
                  | none =>
                    Except.error "period parameter in totp url must be a valid integer.")
               | none => (Except.ok 30 : Except String Nat)) with
            | .error e => .error e
            | .ok period =>
              .ok ⟨bytes, (queryGet q "algorithm").getD "SHA1", digits, period⟩
  | none =>
    match decode_totp_secret secret with
    | .error e => .error e
    | .ok bytes => .ok ⟨bytes, "SHA1", 6, 30⟩

/-- The totp-lite compute step, abstracted: algorithm name, period, digits,
secret bytes, unix seconds, to the code string. -/
abbrev TotpCompute := String → Nat → Nat → List Nat → Nat → String

/-- fn generate_totp (commands.rs lines 2229-2262); the system clock is the
now parameter. -/
def generate_totp (totp : TotpCompute) (now : Nat) (secret : String) :
    Except String String :=
  match parse_totp_secret secret with
  | .error e => .error e
  | .ok p =>
    if p.algorithm = "SHA1" then .ok (totp "SHA1" p.period p.digits p.secret now)
    else if p.algorithm = "SHA256" then .ok (totp "SHA256" p.period p.digits p.secret now)
    else if p.algorithm = "SHA512" then .ok (totp "SHA512" p.period p.digits p.secret now)
    else .error (p.algorithm ++ " is not a valid totp algorithm")

/-! ## Editor buffer parser (commands.rs lines 2104-2123) -/

/-- Rust str::lines on ASCII input without carriage returns: split on
newlines, no trailing empty line, no lines at all for the empty string. -/
def rustLines (s : String) : List String :=
  if s.data.isEmpty then []
  else
    let parts := splitOnChar '\n' s.data
    let parts := if s.data.getLast? = some '\n' then parts.dropLast else parts
    parts.map (fun l => ⟨l⟩)

/-- Pop every trailing newline (the while loop of parse_editor). -/
def stripTrailingNewlines (s : String) : String :=
  ⟨(s.data.reverse.dropWhile (fun c => c = '\n')).reverse⟩

/-- fn parse_editor (commands.rs lines 2104-2123). -/
def parse_editor (contents : String) : Option String × Option String :=
  let lines := rustLines contents
  let password := lines.head?
  let notes :=
    (((lines.drop 1).dropWhile (fun l => l.data.isEmpty)).filter
        (fun l => !strStartsWith l "#")).foldl
      (fun acc l => acc ++ l ++ "\n") ""
  let notes := stripTrailingNewlines notes
  (password, if notes.data.isEmpty then none else some notes)

/-! ## Lemmas about the resolver passes -/

theorem singleHit_eq_some {β : Type} {l : List β} {x : β}
    (h : singleHit l = some x) : l = [x] := by
  match l with
  | [] => simp [singleHit] at h
  | [a] => simp [singleHit] at h; rw [h]
  | a :: b :: t => simp [singleHit] at h

theorem mem_filter_mono {β : Type} {p q : β → Bool} {l : List β} {x : β}
    (hpq : ∀ a, p a = true → q a = true) (h : x ∈ l.filter p) :
    x ∈ l.filter q := by
  rw [List.mem_filter] at h ⊢
  exact ⟨h.1, hpq _ h.2⟩

/-- Passing try_match_folder = false only weakens exact_match. -/
theorem exact_match_drop_folder {rx : RegexEngine} {c : DecryptedCipher}
    {needle : Needle} {u f : Option String} {ic : Bool}
    (h : exact_match rx c needle u f true ic = true) :
    exact_match rx c needle u f false ic = true := by
  simp only [exact_match, Bool.and_eq_true] at h ⊢
  exact ⟨h.1, rfl⟩

/-- ignore_case = true only weakens exact_match. -/
theorem exact_match_ic_mono {rx : RegexEngine} {c : DecryptedCipher}
    {needle : Needle} {u f : Option String} {t : Bool}
    (h : exact_match rx c needle u f t false = true) :
    exact_match rx c needle u f t true = true := by
  simp only [exact_match, Bool.and_eq_true] at h ⊢
  obtain ⟨⟨h1, h2⟩, h3⟩ := h
  refine ⟨⟨?_, h2⟩, h3⟩
  cases needle with
  | name n => simp only [Bool.false_and, Bool.false_or] at h1; simp [h1]
  | uri q => exact h1
  | uuid u => exact h1

/-- An exact name match implies a partial name match with the same
try_match_folder and ignore_case. -/
theorem exact_match_implies_partial_match {rx : RegexEngine} {c : DecryptedCipher}
    {n : String} {u f : Option String} {t ic : Bool}
    (h : exact_match rx c (.name n) u f t ic = true) :
    partial_match c n u f t ic = true := by
  simp only [exact_match, partial_match, Bool.and_eq_true] at h ⊢
  obtain ⟨⟨h1, h2⟩, h3⟩ := h
  refine ⟨⟨?_, ?_⟩, ?_⟩
  · -- name part
    rcases Bool.or_eq_true_iff.mp h1 with hlow | heq
    · rcases Bool.and_eq_true_iff.mp hlow with ⟨hic, hloweq⟩
      apply Bool.or_eq_true_iff.mpr; left
      apply Bool.and_eq_true_iff.mpr
      refine ⟨hic, ?_⟩
      rw [of_decide_eq_true hloweq]
      exact strContains_refl _
    · apply Bool.or_eq_true_iff.mpr; right
      rw [← of_decide_eq_true heq]
      exact strContains_refl _
  · -- username part
    cases u with
    | none => rfl
    | some gu =>
      cases hd : c.data with
      | login un p tp us =>
        rw [hd] at h2
        cases un with
        | none => simp at h2
        | some fu =>
          simp only [] at h2 ⊢
          apply Bool.or_eq_true_iff.mpr; right
          rw [of_decide_eq_true h2]
          exact strContains_refl _
      | card a b e g i j => rw [hd] at h2; simp at h2
      | identity a b e g i j k l m o p q r s t2 u2 v => rw [hd] at h2; simp at h2
      | secureNote => rw [hd] at h2; simp at h2
  · -- folder part
    cases t with
    | false => rfl
    | true =>
      cases f with
      | none =>
        cases hf : c.folder with
        | none => simp [hf]
        | some fo => rw [hf] at h3; simp at h3
      | some gf =>
        cases hf : c.folder with
        | none => rw [hf] at h3; simp at h3
        | some fo =>
          rw [hf] at h3
          simp only [hf]
          simp only [if_true] at h3 ⊢
          rw [← of_decide_eq_true h3]
          exact strContains_refl _

/-- Passing try_match_folder = false only weakens partial_match. -/
theorem partial_match_drop_folder {c : DecryptedCipher} {n : String}
    {u f : Option String} {ic : Bool}
    (h : partial_match c n u f true ic = true) :
    partial_match c n u f false ic = true := by
  simp only [partial_match, Bool.and_eq_true] at h ⊢
  exact ⟨h.1, rfl⟩

/-- ignore_case = true only weakens partial_match. -/
theorem partial_match_ic_mono {c : DecryptedCipher} {n : String}
    {u f : Option String} {t : Bool}
    (h : partial_match c n u f t false = true) :
    partial_match c n u f t true = true := by
  simp only [partial_match, Bool.and_eq_true] at h ⊢
  obtain ⟨⟨h1, h2⟩, h3⟩ := h
  simp only [Bool.false_and, Bool.false_or] at h1 h2
  refine ⟨⟨?_, ?_⟩, h3⟩
  · simp [h1]
  · cases u with
    | none => rfl
    | some gu =>
      cases hd : c.data with
      | login un p tp us =>
        rw [hd] at h2
        cases un with
        | none => simp at h2
        | some fu => simp only [] at h2 ⊢; simp [h2]
      | card a b e g i j => rw [hd] at h2; simp at h2
      | identity a b e g i j k l m o p q r s t2 u2 v => rw [hd] at h2; simp at h2
      | secureNote => rw [hd] at h2; simp at h2

/-- The matches of the last-tried pass. -/
def lastPass {β : Type} : List (List β) → List β
  | [] => []
  | [m] => m
  | _ :: rest => lastPass rest

theorem lastPass_cons_cons {β : Type} (m m2 : List β) (rest : List (List β)) :
    lastPass (m :: m2 :: rest) = lastPass (m2 :: rest) := rfl

/-- A successful staged resolution's entry is a member of the last-tried
pass, provided every pass is contained in the last one. -/
theorem stagedLoop_ok_mem_lastPass {α : Type}
    {L : List (List (α × DecryptedCipher))} {E : α × DecryptedCipher}
    (hmono : ∀ m ∈ L, ∀ x ∈ m, x ∈ lastPass L)
    (h : stagedLoop L = .ok E) : E ∈ lastPass L := by
  induction L with
  | nil => simp [stagedLoop] at h
  | cons m rest ih =>
    cases rest with
    | nil =>
      simp only [stagedLoop] at h
      cases hs : singleHit m with
      | none =>
        rw [hs] at h
        cases hm : m with
        | nil => rw [hm] at h; simp [finishResolve] at h
        | cons a t => rw [hm] at h; simp [finishResolve] at h
      | some x =>
        rw [hs] at h
        have hx : x = E := by injection h
        have := singleHit_eq_some hs
        rw [this, hx]
        simp [lastPass]
    | cons m2 rest2 =>
      simp only [stagedLoop] at h
      cases hs : singleHit m with
      | some x =>
        rw [hs] at h
        have hx : x = E := by injection h
        have hm := singleHit_eq_some hs
        apply hmono m (by simp)
        rw [hm, hx]; simp
      | none =>
        rw [hs] at h
        rw [lastPass_cons_cons]
        apply ih ?_ h
        intro mm hmm x hx
        have := hmono mm (by simp [hmm]) x hx
        rwa [lastPass_cons_cons] at this

/-- If an entry is in the last-tried pass, the staged resolution either
succeeds with some entry or reports ambiguity naming that entry. -/
theorem stagedLoop_of_mem_lastPass {α : Type}
    {L : List (List (α × DecryptedCipher))} {E : α × DecryptedCipher}
    (hne : L ≠ []) (hE : E ∈ lastPass L) :
    (∃ x, stagedLoop L = .ok x) ∨
    (∃ names, stagedLoop L =
        .error ("multiple entries found: " ++ joinComma names) ∧
      display_name E.2 ∈ names) := by
  induction L with
  | nil => exact absurd rfl hne
  | cons m rest ih =>
    cases rest with
    | nil =>
      cases hs : singleHit m with
      | some x =>
        left
        exact ⟨x, by simp [stagedLoop, hs]⟩
      | none =>
        right
        have hEm : E ∈ m := hE
        cases hm : m with
        | nil => rw [hm] at hEm; simp at hEm
        | cons a t =>
          refine ⟨(a :: t).map (fun p => display_name p.2), ?_, ?_⟩
          · rw [hm] at hs
            simp [stagedLoop, hs, hm, finishResolve]
          · rw [hm] at hEm
            exact List.mem_map_of_mem _ hEm
    | cons m2 rest2 =>
      cases hs : singleHit m with
      | some x =>
        left
        exact ⟨x, by simp [stagedLoop, hs]⟩
      | none =>
        have : stagedLoop (m :: m2 :: rest2) = stagedLoop (m2 :: rest2) := by
          simp [stagedLoop, hs]
        rw [this]
        exact ih (by simp) (by rwa [lastPass_cons_cons] at hE)

theorem passList_ne_nil {α : Type} (rx : RegexEngine)
    (entries : List (α × DecryptedCipher)) (needle : Needle)
    (u f : Option String) (ic : Bool) :
    passList rx entries needle u f ic ≠ [] := by
  cases needle <;> cases f <;> simp [passList]

/-- Every pass of the specification's pass list is contained in its last
pass: exact matches are partial matches and folder-qualified matches are
folder-ignored matches. -/
theorem mem_lastPass_passList {α : Type} {rx : RegexEngine}
    {entries : List (α × DecryptedCipher)} {needle : Needle}
    {u f : Option String} {ic : Bool} :
    ∀ m ∈ passList rx entries needle u f ic, ∀ x ∈ m,
      x ∈ lastPass (passList rx entries needle u f ic) := by
  intro m hm x hx
  cases needle with
  | name n =>
    cases f with
    | none =>
      simp only [passList, List.cons_append, List.nil_append,
        List.mem_cons, List.not_mem_nil, or_false] at hm
      simp only [passList, List.cons_append, List.nil_append, lastPass]
      rcases hm with h1 | h2 | h3 | h4
      · exact mem_filter_mono
          (fun a ha => partial_match_drop_folder (exact_match_implies_partial_match ha))
          (h1 ▸ hx)
      · exact mem_filter_mono (fun a ha => exact_match_implies_partial_match ha) (h2 ▸ hx)
      · exact mem_filter_mono (fun a ha => partial_match_drop_folder ha) (h3 ▸ hx)
      · exact h4 ▸ hx
    | some g =>
      simp only [passList, List.cons_append, List.nil_append,
        List.mem_cons, List.not_mem_nil, or_false] at hm
      simp only [passList, List.cons_append, List.nil_append, lastPass]
      rcases hm with h1 | h2
      · exact mem_filter_mono (fun a ha => exact_match_implies_partial_match ha) (h1 ▸ hx)
      · exact h2 ▸ hx
  | uri q =>
    cases f with
    | none =>
      simp only [passList, List.cons_append, List.nil_append, List.append_nil,
        List.mem_cons, List.not_mem_nil, or_false] at hm
      simp only [passList, List.cons_append, List.nil_append, List.append_nil, lastPass]
      rcases hm with h1 | h2
      · exact mem_filter_mono (fun a ha => exact_match_drop_folder ha) (h1 ▸ hx)
      · exact h2 ▸ hx
    | some g =>
      simp only [passList, List.cons_append, List.nil_append, List.append_nil,
        List.mem_cons, List.not_mem_nil, or_false] at hm
      simp only [passList, List.cons_append, List.nil_append, List.append_nil, lastPass]
      exact hm ▸ hx
  | uuid w =>
    cases f with
    | none =>
      simp only [passList, List.cons_append, List.nil_append, List.append_nil,
        List.mem_cons, List.not_mem_nil, or_false] at hm
      simp only [passList, List.cons_append, List.nil_append, List.append_nil, lastPass]
      rcases hm with h1 | h2
      · exact mem_filter_mono (fun a ha => exact_match_drop_folder ha) (h1 ▸ hx)
      · exact h2 ▸ hx
    | some g =>
      simp only [passList, List.cons_append, List.nil_append, List.append_nil,
        List.mem_cons, List.not_mem_nil, or_false] at hm
      simp only [passList, List.cons_append, List.nil_append, List.append_nil, lastPass]
      exact hm ▸ hx

/-- Membership in the last pass is preserved when ignore_case turns on. -/
theorem mem_lastPass_ic_mono {α : Type} {rx : RegexEngine}
    {entries : List (α × DecryptedCipher)} {needle : Needle}
    {u f : Option String} {x : α × DecryptedCipher}
    (h : x ∈ lastPass (passList rx entries needle u f false)) :
    x ∈ lastPass (passList rx entries needle u f true) := by
  cases needle with
  | name n =>
    cases f with
    | none =>
      simp only [passList, List.cons_append, List.nil_append, lastPass] at h ⊢
      exact mem_filter_mono (fun a ha => partial_match_ic_mono ha) h
    | some g =>
      simp only [passList, List.cons_append, List.nil_append, lastPass] at h ⊢
      exact mem_filter_mono (fun a ha => partial_match_ic_mono ha) h
  | uri q =>
    cases f with
    | none =>
      simp only [passList, List.cons_append, List.nil_append, List.append_nil,
        lastPass] at h ⊢
      exact mem_filter_mono (fun a ha => exact_match_ic_mono ha) h
    | some g =>
      simp only [passList, List.cons_append, List.nil_append, List.append_nil,
        lastPass] at h ⊢
      exact mem_filter_mono (fun a ha => exact_match_ic_mono ha) h
  | uuid w =>
    cases f with
    | none =>
      simp only [passList, List.cons_append, List.nil_append, List.append_nil,
        lastPass] at h ⊢
      exact mem_filter_mono (fun a ha => exact_match_ic_mono ha) h
    | some g =>
      simp only [passList, List.cons_append, List.nil_append, List.append_nil,
        lastPass] at h ⊢
      exact mem_filter_mono (fun a ha => exact_match_ic_mono ha) h

/-! ## Claim C1 -/

/-- C1: for every entry list, needle, optional username, optional folder and
ignore_case flag, find_entry_raw runs at most four filter passes in the fixed
order (exact folder-qualified; exact folder-ignored only when folder is
absent; partial folder-qualified only when the needle is a Name; partial
folder-ignored only when the needle is a Name and folder is absent), returns
the unique candidate of the first pass that yields exactly one match, and
after the passes returns the no-entry-found error if the last-tried pass had
zero matches or the ambiguity error joining the candidates' display names
with commas if it had two or more — that is, it equals the staged resolver
resolveStaged written from the specification's words. -/
theorem find_entry_raw_runs_staged_passes {α : Type} (rx : RegexEngine)
    (entries : List (α × DecryptedCipher)) (needle : Needle)
    (username folder : Option String) (ignore_case : Bool) :
    find_entry_raw rx entries needle username folder ignore_case =
      resolveStaged rx entries needle username folder ignore_case :=
  find_entry_raw_eq_resolveStaged rx entries needle username folder ignore_case

/-! ## Claim C2 -/

/-- A regex engine on which every pattern fails to compile (sufficient for
all claims, none of which exercises the RegularExpression match type). -/
def rxNone : RegexEngine := fun _ => none

/-- Counterexample cipher: upper-case name, no folder. -/
def ceF : DecryptedCipher :=
  ⟨"11111111-1111-1111-1111-111111111111", none, "GITLAB", .secureNote, [], none, []⟩

/-- Counterexample cipher: lower-case name, in a folder. -/
def ceE : DecryptedCipher :=
  ⟨"22222222-2222-2222-2222-222222222222", some "work", "gitlab", .secureNote, [], none, []⟩

/-- Counterexample entry list for the resolver claims. -/
def ceEntries : List (Nat × DecryptedCipher) := [(0, ceF), (1, ceE)]

/-- C2 is false as stated: with ignore_case=false the resolver returns the
entry named gitlab (found by the exact folder-ignored pass), but with
ignore_case=true it returns the different entry named GITLAB (the exact
folder-qualified pass now has exactly one hit), neither that entry nor an
ambiguity involving it. -/
theorem resolver_ic_not_superset :
    find_entry_raw rxNone ceEntries (.name "gitlab") none none false =
      .ok (1, ceE) ∧
    find_entry_raw rxNone ceEntries (.name "gitlab") none none true =
      .ok (0, ceF) ∧
    (0, ceF) ≠ ((1 : Nat), ceE) := by
  refine ⟨rfl, rfl, ?_⟩
  intro h
  exact absurd (congrArg Prod.fst h) (by decide)

/-- C2 (amended): if the resolver with ignore_case=false returns entry E,
then the resolver with ignore_case=true on the same inputs returns some
entry (not necessarily E), or returns an Ambiguous error whose candidate
set includes E; it never reports NotFound. -/
theorem resolver_ic_superset_amended {α : Type} (rx : RegexEngine)
    (entries : List (α × DecryptedCipher)) (needle : Needle)
    (username folder : Option String) (E : α × DecryptedCipher)
    (h : find_entry_raw rx entries needle username folder false = .ok E) :
    (∃ x, find_entry_raw rx entries needle username folder true = .ok x) ∨
    (∃ names, find_entry_raw rx entries needle username folder true =
        .error ("multiple entries found: " ++ joinComma names) ∧
      display_name E.2 ∈ names) := by
  rw [find_entry_raw_eq_resolveStaged] at h
  simp only [resolveStaged] at h
  have hlast := stagedLoop_ok_mem_lastPass mem_lastPass_passList h
  have hlast2 := mem_lastPass_ic_mono hlast
  rw [find_entry_raw_eq_resolveStaged]
  simp only [resolveStaged]
  exact stagedLoop_of_mem_lastPass
    (passList_ne_nil rx entries needle username folder true) hlast2

/-- Closed instance of the amended C2 at a concrete input. -/
theorem resolver_ic_superset_amended_witness :
    (∃ x, find_entry_raw rxNone ceEntries (.name "gitlab") none none true = .ok x) ∨
    (∃ names, find_entry_raw rxNone ceEntries (.name "gitlab") none none true =
        .error ("multiple entries found: " ++ joinComma names) ∧
      display_name (1, ceE).2 ∈ names) :=
  resolver_ic_superset_amended rxNone ceEntries (.name "gitlab") none none
    (1, ceE) rfl

/-! ## Claim C3 -/

/-- isOkE ignores an Except.map. -/
theorem isOkE_map {β γ : Type} (g : β → γ) (x : Except String β) :
    isOkE (x.map g) = isOkE x := by
  cases x <;> rfl

/-- collectExcept succeeds exactly when every element does. -/
theorem isOkE_collectExcept {α β : Type} (f : α → Except String β) (l : List α) :
    isOkE (collectExcept f l) = l.all (fun a => isOkE (f a)) := by
  induction l with
  | nil => rfl
  | cons a as ih =>
    simp only [collectExcept, List.all_cons]
    cases hf : f a with
    | error e => simp [isOkE]
    | ok b =>
      cases hc : collectExcept f as with
      | error e2 =>
        rw [hc] at ih
        simp only [isOkE] at ih ⊢
        rw [← ih]
        simp
      | ok bs =>
        rw [hc] at ih
        simp only [isOkE] at ih ⊢
        rw [← ih]
        simp

/-- Does every ciphertext slot of one custom field decrypt? -/
def fieldDecryptsOk (d : Decryptor) (key org_id : Option String) (f : DbField) : Bool :=
  (match f.name with
   | some n => isOkE (d n key org_id)
   | none => true) &&
  (match f.value with
   | some v => isOkE (d v key org_id)
   | none => true)

@[simp] theorem isOkE_ok {β : Type} (b : β) : isOkE (.ok b) = true := rfl

@[simp] theorem isOkE_error {β : Type} (e : String) :
    isOkE (.error e : Except String β) = false := rfl

@[simp] theorem isOkE_decryptDbField (d : Decryptor) (key org_id : Option String)
    (f : DbField) :
    isOkE (decryptDbField d key org_id f) = fieldDecryptsOk d key org_id f := by
  rcases f with ⟨fn, fv, ft⟩
  cases fn with
  | none =>
    cases fv with
    | none => rfl
    | some v => simp [decryptDbField, fieldDecryptsOk, isOkE_map]
  | some n =>
    cases hd : d n key org_id with
    | error e => simp [decryptDbField, fieldDecryptsOk, hd]
    | ok pn =>
      cases fv with
      | none => simp [decryptDbField, fieldDecryptsOk, hd]
      | some v => simp [decryptDbField, fieldDecryptsOk, hd, isOkE_map]

@[simp] theorem isOkE_decryptHistoryEntry (d : Decryptor) (key org_id : Option String)
    (h : DbHistoryEntry) :
    isOkE (decryptHistoryEntry d key org_id h) = isOkE (d h.password key org_id) :=
  isOkE_map _ _

/-- A decryptor failing exactly on the ciphertext CT_BAD. -/
def dBad : Decryptor := fun c _ _ =>
  if c = "CT_BAD" then .error "decrypt failed" else .ok ("p:" ++ c)

/-- An entry whose name decrypts but whose single history password does not. -/
def entryBadHistory : DbEntry :=
  ⟨"33333333-3333-3333-3333-333333333333", none, none, none, "CT_NAME",
    .secureNote, [], none, [⟨"2024-01-01", "CT_BAD"⟩], none⟩

/-- An entry whose name decrypts but whose single custom-field value does not. -/
def entryBadField : DbEntry :=
  ⟨"44444444-4444-4444-4444-444444444444", none, none, none, "CT_NAME",
    .secureNote, [⟨none, some "CT_BAD", none⟩], none, [], none⟩

/-- C3 is false as stated: decryption failures of a history password or of a
custom-field value abort the whole projection with an error even though the
name field decrypts fine. -/
theorem decrypt_cipher_aborts_on_non_name_failure :
    dBad "CT_NAME" none none = .ok "p:CT_NAME" ∧
    decrypt_cipher dBad entryBadHistory = .error "decrypt failed" ∧
    decrypt_cipher dBad entryBadField = .error "decrypt failed" :=
  ⟨rfl, rfl, rfl⟩

/-- C3 (amended): the projection succeeds exactly when the name, every
present custom-field name and value, and every history password decrypt;
failures of any other field (folder, notes, and every variant data field,
which go through decrypt_field or degrade to an absent uris list) never
abort the projection. -/
theorem decrypt_cipher_ok_iff (d : Decryptor) (e : DbEntry) :
    isOkE (decrypt_cipher d e) =
      (e.fields.all (fun f0 => fieldDecryptsOk d e.key e.org_id f0) &&
       e.history.all (fun h => isOkE (d h.password e.key e.org_id)) &&
       isOkE (d e.name e.key e.org_id)) := by
  have hall := isOkE_collectExcept (decryptDbField d e.key e.org_id) e.fields
  have hallh := isOkE_collectExcept (decryptHistoryEntry d e.key e.org_id) e.history
  simp only [isOkE_decryptDbField] at hall
  simp only [isOkE_decryptHistoryEntry] at hallh
  simp only [decrypt_cipher]
  cases hf : collectExcept (decryptDbField d e.key e.org_id) e.fields with
  | error er =>
    rw [hf] at hall
    simp only [isOkE_error] at hall ⊢
    rw [← hall]
    simp
  | ok fields =>
    rw [hf] at hall
    simp only [isOkE_ok] at hall
    rw [← hall]
    simp only [Bool.true_and]
    cases hh : collectExcept (decryptHistoryEntry d e.key e.org_id) e.history with
    | error er =>
      rw [hh] at hallh
      simp only [isOkE_error] at hallh ⊢
      rw [← hallh]
      simp
    | ok history =>
      rw [hh] at hallh
      simp only [isOkE_ok] at hallh
      rw [← hallh]
      simp only [Bool.true_and]
      cases hn : d e.name e.key e.org_id with
      | error er => simp
      | ok name => simp

/-! ## Claim C4 -/

/-- C4: with the Domain match type (the default when match_type is absent),
a stored URI https://one.com/ matches the query URL https://login.one.com/
(dot-suffix subdomain rule); a stored URI https://two.com/login matches the
query URL https://two.com/other-page (only the domain is compared, the path
is ignored); and a stored URI https://five.com:8080/ does not match the
query URL https://five.com/ (an explicit non-default port must agree). -/
theorem matches_url_domain_facts :
    (parseUrl "https://login.one.com/").map
        (fun q => matches_url rxNone ⟨"https://one.com/", none⟩ q) = some true ∧
    (parseUrl "https://two.com/other-page").map
        (fun q => matches_url rxNone ⟨"https://two.com/login", none⟩ q) = some true ∧
    (parseUrl "https://five.com/").map
        (fun q => matches_url rxNone ⟨"https://five.com:8080/", none⟩ q) = some false :=
  ⟨rfl, rfl, rfl⟩

/-! ## Claim C5 -/

/-- C5: with the Host match type there is no subdomain rule (host one.com
does not match query host login.one.com, whether the stored URI is a full
URL or a bare host), while a query URL written with the scheme's default
port explicit (https://one.com:443/) matches a stored URI for one.com
without a port, because host-with-port carries only a literal, non-defaulted
port (the parser normalises the default port away). -/
theorem matches_url_host_facts :
    (parseUrl "https://login.one.com/").map
        (fun q => matches_url rxNone ⟨"https://one.com/", some .host⟩ q) = some false ∧
    (parseUrl "https://login.one.com/").map
        (fun q => matches_url rxNone ⟨"one.com", some .host⟩ q) = some false ∧
    (parseUrl "https://one.com:443/").map
        (fun q => matches_url rxNone ⟨"https://one.com/", some .host⟩ q) = some true ∧
    (parseUrl "https://one.com:443/").map
        (fun q => matches_url rxNone ⟨"one.com", some .host⟩ q) = some true :=
  ⟨rfl, rfl, rfl, rfl⟩

/-! ## Claim C9 -/

/-- C9: when the needle is a Uuid, find_entry ignores the username and
folder filters (and the ignore_case flag) entirely: it returns the first
entry in database order whose id parses to that UUID, projected through
decrypt_cipher, and the no-entry-found error exactly when no entry has that
id.  The right-hand side does not mention username, folder or ignore_case,
and the theorem quantifies over them. -/
theorem find_entry_uuid_ignores_filters (rx : RegexEngine) (d : Decryptor)
    (db : List DbEntry) (u : String) (username folder : Option String)
    (ignore_case : Bool) :
    find_entry rx d db (.uuid u) username folder ignore_case =
      (match db.find? (fun e => decide (parseUuid e.id = some u)) with
       | some e => (decrypt_cipher d e).map (fun c => (e, c))
       | none => .error "no entry found") := by
  simp only [find_entry]
  induction db with
  | nil => rfl
  | cons e rest ih =>
    by_cases hp : parseUuid e.id = some u
    · rw [List.find?_cons_of_pos _ (by simp [hp])]
      simp only [findEntryUuid, if_pos hp]
    · rw [List.find?_cons_of_neg _ (by simp [hp])]
      simp only [findEntryUuid, if_neg hp]
      exact ih

/-! ## Claim C10 -/

/-- C10: search_match is true if and only if (when a folder is supplied) the
cipher's folder equals it exactly and case-sensitively, and the lowercased
term is a substring of at least one of: the lowercased entry name, the
lowercased notes, the lowercased Login username, or a lowercased
custom-field value.  No other field is searched: custom-field names,
usernames of non-Login variants, passwords, card numbers, identity fields
and URIs do not appear in the right-hand side. -/
theorem search_match_characterisation (c : DecryptedCipher) (term : String)
    (folder : Option String) :
    search_match c term folder = true ↔
      ((∀ f, folder = some f → c.folder = some f) ∧
       (strContains (strToLower c.name) (strToLower term) = true ∨
        (∃ nts, c.notes = some nts ∧
          strContains (strToLower nts) (strToLower term) = true) ∨
        (∃ un p t us, c.data = .login (some un) p t us ∧
          strContains (strToLower un) (strToLower term) = true) ∨
        (∃ fl ∈ c.fields, ∃ v, fl.value = some v ∧
          strContains (strToLower v) (strToLower term) = true))) := by
  constructor
  · intro h
    simp only [search_match, Bool.and_eq_true] at h
    obtain ⟨h1, h2⟩ := h
    constructor
    · intro f hf
      subst hf
      simpa using h1
    · rw [List.any_eq_true] at h2
      obtain ⟨s, hs, hp⟩ := h2
      rw [List.mem_append] at hs
      rcases hs with hsl | hsr
      · rw [List.mem_filterMap] at hsl
        obtain ⟨o, ho, hido⟩ := hsl
        simp only [id_eq] at hido
        subst hido
        simp only [List.mem_cons, List.not_mem_nil, or_false] at ho
        rcases ho with h3 | h3 | h3
        · left
          have : s = c.name := by injection h3
          rwa [← this]
        · right; left
          exact ⟨s, h3.symm, hp⟩
        · right; right; left
          cases hd : c.data with
          | login un p t us =>
            rw [hd] at h3
            cases un with
            | none => simp at h3
            | some fu =>
              simp only [Option.some.injEq] at h3
              exact ⟨fu, p, t, us, rfl, by rwa [← h3]⟩
          | card a b e g i j => rw [hd] at h3; simp at h3
          | identity a b e g i j k l m o2 p q r s2 t2 u2 v => rw [hd] at h3; simp at h3
          | secureNote => rw [hd] at h3; simp at h3
      · rw [List.mem_filterMap] at hsr
        obtain ⟨fl, hfl, hv⟩ := hsr
        right; right; right
        exact ⟨fl, hfl, s, hv, hp⟩
  · intro h
    obtain ⟨hfold, hdisj⟩ := h
    simp only [search_match, Bool.and_eq_true]
    refine ⟨?_, ?_⟩
    · cases folder with
      | none => rfl
      | some f => simpa using hfold f rfl
    · rw [List.any_eq_true]
      rcases hdisj with h | h | h | h
      · refine ⟨c.name, ?_, h⟩
        rw [List.mem_append]; left
        rw [List.mem_filterMap]
        exact ⟨some c.name, by simp, rfl⟩
      · obtain ⟨nts, hnts, hc⟩ := h
        refine ⟨nts, ?_, hc⟩
        rw [List.mem_append]; left
        rw [List.mem_filterMap]
        refine ⟨some nts, ?_, rfl⟩
        rw [← hnts]
        simp
      · obtain ⟨un, p, t, us, hdata, hc⟩ := h
        refine ⟨un, ?_, hc⟩
        rw [List.mem_append]; left
        rw [List.mem_filterMap]
        refine ⟨some un, ?_, rfl⟩
        rw [List.mem_cons, List.mem_cons]
        right; right
        simp [hdata]
      · obtain ⟨fl, hfl, v, hv, hc⟩ := h
        refine ⟨v, ?_, hc⟩
        rw [List.mem_append]; right
        rw [List.mem_filterMap]
        exact ⟨fl, hfl, hv⟩

/-! ## Claim C8 -/

/-- C8: parse_editor takes the first line as the password (absent for the
empty buffer), then skips leading blank lines, drops lines starting with a
hash, joins the remainder with newlines and strips trailing newlines, with
empty notes becoming absent.  Concretely, the buffer pw-blank-note1-hash
line-note2 yields (pw, note1 newline note2), the empty buffer yields
(none, none), and in general any buffer whose post-password lines all start
with a hash yields absent notes. -/
theorem parse_editor_facts :
    parse_editor "pw\n\nnote1\n#ignored\nnote2\n" = (some "pw", some "note1\nnote2") ∧
    parse_editor "" = (none, none) ∧
    (∀ s : String,
      ((rustLines s).drop 1).all (fun l => strStartsWith l "#") = true →
      (parse_editor s).2 = none) := by
  refine ⟨rfl, rfl, ?_⟩
  intro s h
  have hmem := List.all_eq_true.mp h
  have hdw : ((rustLines s).drop 1).dropWhile (fun l => l.data.isEmpty) =
      (rustLines s).drop 1 := by
    cases hL : (rustLines s).drop 1 with
    | nil => rfl
    | cons a t =>
      rw [List.dropWhile_cons]
      have ha := hmem a (by rw [hL]; simp)
      have hne : a.data.isEmpty = false := by
        cases hd : a.data with
        | nil =>
          rw [strStartsWith, hd] at ha
          simp [startsWithSeq] at ha
        | cons c cs => simp
      rw [hne]
      simp
  have hfil : (((rustLines s).drop 1).dropWhile (fun l => l.data.isEmpty)).filter
      (fun l => !strStartsWith l "#") = [] := by
    rw [hdw]
    rw [List.filter_eq_nil_iff]
    intro a ha
    rw [hmem a ha]
    simp
  simp only [parse_editor]
  rw [hfil]
  rfl

/-- Closed instance of the all-hash-lines case of C8. -/
theorem parse_editor_facts_witness : (parse_editor "pw\n#a\n#b\n").2 = none :=
  parse_editor_facts.2.2 "pw\n#a\n#b\n" (by decide)

/-! ## Claim C6 -/

/-- Did TOTP generation fail with the invalid-algorithm error? -/
def algErrB : Except String String → Bool
  | .error e => strContains e "is not a valid totp algorithm"
  | .ok _ => false

theorem strContains_append_right (a m : String) :
    strContains (a ++ m) m = true := by
  rw [strContains, String.data_append]
  exact containsSeq_append_right _ _

theorem algErr_contains (alg : String) :
    strContains (alg ++ " is not a valid totp algorithm")
      "is not a valid totp algorithm" = true := by
  rw [strContains, String.data_append]
  have h1 : (" is not a valid totp algorithm" : String).data =
      ' ' :: ("is not a valid totp algorithm" : String).data := rfl
  rw [h1]
  have h2 : alg.data ++ ' ' :: ("is not a valid totp algorithm" : String).data =
      (alg.data ++ [' ']) ++ ("is not a valid totp algorithm" : String).data := by
    simp
  rw [h2]
  exact containsSeq_append_right _ _

/-- C6: TOTP generation fails with an error containing the text
is-not-a-valid-totp-algorithm exactly when the (possibly defaulted)
algorithm parameter is not one of the exact case-sensitive strings SHA1,
SHA256, SHA512 (first conjunct); when the algorithm, digits or period query
parameters are absent from an otpauth URL the defaults SHA1, 6 and 30 are
used (second conjunct); and a bare base32 secret gets all three defaults
(third conjunct). -/
theorem generate_totp_algorithm_facts :
    (∀ (totp : TotpCompute) (now : Nat) (secret : String) (p : TotpParams),
      parse_totp_secret secret = .ok p →
      (algErrB (generate_totp totp now secret) = true ↔
        ¬ p.algorithm ∈ (["SHA1", "SHA256", "SHA512"] : List String))) ∧
    (∀ (secret : String) (u : Url) (p : TotpParams),
      parseUrl secret = some u →
      parse_totp_secret secret = .ok p →
      ((queryGet (queryPairs u) "algorithm" = none → p.algorithm = "SHA1") ∧
       (queryGet (queryPairs u) "digits" = none → p.digits = 6) ∧
       (queryGet (queryPairs u) "period" = none → p.period = 30))) ∧
    (∀ (secret : String) (p : TotpParams),
      parseUrl secret = none →
      parse_totp_secret secret = .ok p →
      p.algorithm = "SHA1" ∧ p.digits = 6 ∧ p.period = 30) := by
  refine ⟨?_, ?_, ?_⟩
  · intro totp now secret p hp
    simp only [generate_totp, hp]
    by_cases h1 : p.algorithm = "SHA1"
    · simp [h1, algErrB]
    · by_cases h2 : p.algorithm = "SHA256"
      · simp [h1, h2, algErrB]
      · by_cases h3 : p.algorithm = "SHA512"
        · simp [h1, h2, h3, algErrB]
        · simp only [if_neg h1, if_neg h2, if_neg h3, algErrB]
          constructor
          · intro _
            simp [h1, h2, h3]
          · intro _
            exact algErr_contains p.algorithm
  · intro secret u p hurl hp
    refine ⟨?_, ?_, ?_⟩
    · intro halg
      simp only [parse_totp_secret, hurl, halg] at hp
      split at hp
      · exact absurd hp (by simp)
      · split at hp
        · exact absurd hp (by simp)
        · split at hp
          · exact absurd hp (by simp)
          · split at hp
            · exact absurd hp (by simp)
            · split at hp
              · exact absurd hp (by simp)
              · split at hp
                · exact absurd hp (by simp)
                · have hrec := Except.ok.inj hp
                  rw [← hrec]
                  rfl
    · intro hdig
      simp only [parse_totp_secret, hurl, hdig] at hp
      split at hp
      · exact absurd hp (by simp)
      · split at hp
        · exact absurd hp (by simp)
        · split at hp
          · exact absurd hp (by simp)
          · split at hp
            · exact absurd hp (by simp)
            · split at hp
              · exact absurd hp (by simp)
              · have hrec := Except.ok.inj hp
                rw [← hrec]
    · intro hper
      simp only [parse_totp_secret, hurl, hper] at hp
      split at hp
      · exact absurd hp (by simp)
      · split at hp
        · exact absurd hp (by simp)
        · split at hp
          · exact absurd hp (by simp)
          · split at hp
            · exact absurd hp (by simp)
            · split at hp
              · exact absurd hp (by simp)
              · have hrec := Except.ok.inj hp
                rw [← hrec]
  · intro secret p hurl hp
    simp only [parse_totp_secret, hurl] at hp
    split at hp
    · exact absurd hp (by simp)
    · have hrec := Except.ok.inj hp
      subst hrec
      exact ⟨rfl, rfl, rfl⟩

/-- Closed instance of C6 at concrete inputs: the lower-case spelling sha256
is a hard error with the invalid-algorithm message, and an otpauth URL with
no algorithm, digits or period parameters parses with the defaults. -/
theorem generate_totp_algorithm_facts_witness :
    algErrB (generate_totp (fun a _ _ _ _ => a) 0
      "otpauth://totp/Label?secret=JBSWY3DPEHPK3PXP&algorithm=sha256") = true ∧
    (∀ p, parse_totp_secret "otpauth://totp/Label?secret=JBSWY3DPEHPK3PXP" = .ok p →
      p.algorithm = "SHA1") := by
  constructor
  · exact (generate_totp_algorithm_facts.1 (fun a _ _ _ _ => a) 0
      "otpauth://totp/Label?secret=JBSWY3DPEHPK3PXP&algorithm=sha256"
      ⟨[72, 101, 108, 108, 111, 33, 222, 173, 190, 239], "sha256", 6, 30⟩
      rfl).mpr (by decide)
  · intro p hp
    exact ((generate_totp_algorithm_facts.2.1
      "otpauth://totp/Label?secret=JBSWY3DPEHPK3PXP"
      ⟨"otpauth", some "totp", none, "/Label", some "secret=JBSWY3DPEHPK3PXP"⟩
      p (by decide) hp).1 (by decide))

/-! ## Claim C7: character-level lemmas -/

theorem charLower_toNat (c : Char) (h : 65 ≤ c.toNat ∧ c.toNat ≤ 90) :
    (charLower c).toNat = c.toNat + 32 := by
  simp only [charLower, dif_pos h]
  rfl

theorem charLower_eq_self (c : Char) (h : ¬ (65 ≤ c.toNat ∧ c.toNat ≤ 90)) :
    charLower c = c := by
  simp only [charLower, dif_neg h]

/-- Every character either alphabet accepts has a code point in [50, 122]
other than 61 (so it is never whitespace and never the padding character). -/
theorem b32val_range {lower : Bool} {c : Char} {v : Nat}
    (h : b32val lower c = some v) :
    50 ≤ c.toNat ∧ c.toNat ≤ 122 ∧ c.toNat ≠ 61 := by
  simp only [b32val] at h
  split at h
  · rename_i hcond
    simp only [Bool.and_eq_true, Bool.not_eq_eq_eq_not, Bool.not_true,
      decide_eq_true_eq] at hcond
    omega
  · split at h
    · rename_i hcond
      simp only [Bool.and_eq_true, decide_eq_true_eq] at hcond
      omega
    · split at h
      · rename_i hcond
        simp only [Bool.and_eq_true, decide_eq_true_eq] at hcond
        omega
      · exact absurd h (by simp)

theorem b32val_not_ws {lower : Bool} {c : Char} {v : Nat}
    (h : b32val lower c = some v) : isWs c = false := by
  have hr := b32val_range h
  simp only [isWs, Bool.or_eq_false_iff, decide_eq_false_iff_not]
  refine ⟨⟨⟨?_, ?_⟩, ?_⟩, ?_⟩ <;>
    · intro he
      subst he
      revert hr
      decide

theorem b32val_ne_pad {lower : Bool} {c : Char} {v : Nat}
    (h : b32val lower c = some v) : c ≠ '=' := by
  have hr := b32val_range h
  intro he
  subst he
  revert hr
  decide

/-- The exact acceptance ranges of each alphabet, with the decoded value. -/
theorem b32val_mem_range {lower : Bool} {c : Char} {v : Nat}
    (h : b32val lower c = some v) :
    (lower = false ∧ 65 ≤ c.toNat ∧ c.toNat ≤ 90 ∧ v = c.toNat - 65) ∨
    (lower = true ∧ 97 ≤ c.toNat ∧ c.toNat ≤ 122 ∧ v = c.toNat - 97) ∨
    (50 ≤ c.toNat ∧ c.toNat ≤ 55 ∧ v = c.toNat - 50 + 26) := by
  simp only [b32val] at h
  split at h
  · rename_i hcond
    simp only [Bool.and_eq_true, Bool.not_eq_eq_eq_not, Bool.not_true,
      decide_eq_true_eq] at hcond
    left
    exact ⟨hcond.1.1, hcond.1.2, hcond.2, (Option.some.inj h).symm⟩
  · split at h
    · rename_i hcond
      simp only [Bool.and_eq_true, decide_eq_true_eq] at hcond
      right; left
      exact ⟨hcond.1.1, hcond.1.2, hcond.2, (Option.some.inj h).symm⟩
    · split at h
      · rename_i hcond
        simp only [Bool.and_eq_true, decide_eq_true_eq] at hcond
        right; right
        exact ⟨hcond.1, hcond.2, (Option.some.inj h).symm⟩
      · exact absurd h (by simp)

/-- Evaluation of each alphabet on its two acceptance ranges. -/
theorem b32val_eval_upper {c : Char} (h : 65 ≤ c.toNat ∧ c.toNat ≤ 90) :
    b32val false c = some (c.toNat - 65) := by
  simp only [b32val]
  rw [if_pos]
  simp only [Bool.not_false, Bool.true_and, Bool.and_eq_true, decide_eq_true_eq]
  exact h

theorem b32val_eval_lower {c : Char} (h : 97 ≤ c.toNat ∧ c.toNat ≤ 122) :
    b32val true c = some (c.toNat - 97) := by
  simp only [b32val]
  rw [if_neg (by simp), if_pos]
  simp only [Bool.true_and, Bool.and_eq_true, decide_eq_true_eq]
  exact h

theorem b32val_eval_digit (lower : Bool) {c : Char}
    (h : 50 ≤ c.toNat ∧ c.toNat ≤ 55) :
    b32val lower c = some (c.toNat - 50 + 26) := by
  simp only [b32val]
  rw [if_neg, if_neg, if_pos]
  · simp only [Bool.and_eq_true, decide_eq_true_eq]
    exact h
  · simp only [Bool.and_eq_true, Bool.not_eq_eq_eq_not, decide_eq_true_eq, not_and]
    intro _ h97
    omega
  · simp only [Bool.and_eq_true, Bool.not_eq_eq_eq_not, Bool.not_true,
      decide_eq_true_eq, not_and]
    intro _ h65
    omega

/-- Lower-casing an upper-alphabet character gives the same value in the
lower alphabet. -/
theorem b32val_lower_charLower {c : Char} {v : Nat}
    (h : b32val false c = some v) : b32val true (charLower c) = some v := by
  rcases b32val_mem_range h with ⟨_, h65, h90, hv⟩ | ⟨hf, _⟩ | ⟨h50, h55, hv⟩
  · have ht := charLower_toNat c ⟨h65, h90⟩
    rw [b32val_eval_lower (by rw [ht]; omega), ht, hv]
    have harith : c.toNat + 32 - 97 = c.toNat - 65 := by omega
    rw [harith]
  · exact absurd hf (by simp)
  · have hcl := charLower_eq_self c (by omega)
    rw [hcl, b32val_eval_digit true ⟨h50, h55⟩, hv]

/-- The upper alphabet accepts a lower-cased character only when lower-casing
did not change it, with the same value. -/
theorem b32val_upper_charLower_agree {c : Char} {v w : Nat}
    (h : b32val false c = some v) (h2 : b32val false (charLower c) = some w) :
    w = v := by
  by_cases h1 : 65 ≤ c.toNat ∧ c.toNat ≤ 90
  · have ht := charLower_toNat c h1
    rcases b32val_mem_range h2 with ⟨_, h65, h90, _⟩ | ⟨hf, _⟩ | ⟨h50, h55, _⟩
    · rw [ht] at h90; omega
    · exact absurd hf (by simp)
    · rw [ht] at h55; omega
  · rw [charLower_eq_self c h1] at h2
    rw [h] at h2
    exact (Option.some.inj h2).symm

/-- The two alphabets agree wherever both accept (the digit range). -/
theorem b32val_both_agree {c : Char} {v w : Nat}
    (h : b32val false c = some v) (h2 : b32val true c = some w) : w = v := by
  rcases b32val_mem_range h with ⟨_, h65, h90, hv⟩ | ⟨hf, _⟩ | ⟨h50, h55, hv⟩
  · rcases b32val_mem_range h2 with ⟨hf, _⟩ | ⟨_, h97, _, _⟩ | ⟨_, hd55, _⟩
    · exact absurd hf (by simp)
    · omega
    · omega
  · exact absurd hf (by simp)
  · rcases b32val_mem_range h2 with ⟨hf, _⟩ | ⟨_, h97, _, _⟩ | ⟨_, _, hw⟩
    · exact absurd hf (by simp)
    · omega
    · rw [hv, hw]

/-! ## Claim C7: collect-level lemmas -/

theorem collectOption_none_of_mem {α β : Type} {f : α → Option β} {l : List α}
    {a : α} (ha : a ∈ l) (hfa : f a = none) : collectOption f l = none := by
  induction l with
  | nil => simp at ha
  | cons x xs ih =>
    rcases List.mem_cons.mp ha with h | h
    · subst h
      simp [collectOption, hfa]
    · simp only [collectOption]
      cases hfx : f x with
      | none => rfl
      | some b =>
        rw [ih h]

theorem collectOption_mem_some {α β : Type} {f : α → Option β} {l : List α}
    {vals : List β} (h : collectOption f l = some vals) :
    ∀ a ∈ l, ∃ y, f a = some y := by
  induction l generalizing vals with
  | nil => intro a ha; simp at ha
  | cons x xs ih =>
    intro a ha
    simp only [collectOption] at h
    cases hfx : f x with
    | none => rw [hfx] at h; simp at h
    | some b =>
      rw [hfx] at h
      cases hc : collectOption f xs with
      | none => rw [hc] at h; simp at h
      | some bs =>
        rcases List.mem_cons.mp ha with h1 | h1
        · exact ⟨b, h1 ▸ hfx⟩
        · exact ih hc a h1

theorem collectOption_lower_map {l : List Char} {vals : List Nat}
    (h : collectOption (b32val false) l = some vals) :
    collectOption (b32val true) (l.map charLower) = some vals := by
  induction l generalizing vals with
  | nil =>
    simp only [collectOption] at h
    simp [collectOption, ← Option.some.inj h]
  | cons x xs ih =>
    simp only [collectOption] at h
    cases hfx : b32val false x with
    | none => rw [hfx] at h; simp at h
    | some b =>
      rw [hfx] at h
      cases hc : collectOption (b32val false) xs with
      | none => rw [hc] at h; simp at h
      | some bs =>
        rw [hc] at h
        simp only [List.map_cons, collectOption, b32val_lower_charLower hfx, ih hc]
        exact h

theorem collectOption_upper_map_agree {l : List Char} {vals w : List Nat}
    (h : collectOption (b32val false) l = some vals)
    (h2 : collectOption (b32val false) (l.map charLower) = some w) :
    w = vals := by
  induction l generalizing vals w with
  | nil =>
    simp only [collectOption] at h h2
    rw [← Option.some.inj h, ← Option.some.inj h2]
  | cons x xs ih =>
    simp only [collectOption, List.map_cons] at h h2
    cases hfx : b32val false x with
    | none => rw [hfx] at h; simp at h
    | some b =>
      rw [hfx] at h
      cases hfx2 : b32val false (charLower x) with
      | none => rw [hfx2] at h2; simp at h2
      | some b2 =>
        rw [hfx2] at h2
        have hb : b2 = b := b32val_upper_charLower_agree hfx hfx2
        cases hc : collectOption (b32val false) xs with
        | none => rw [hc] at h; simp at h
        | some bs =>
          rw [hc] at h
          cases hc2 : collectOption (b32val false) (xs.map charLower) with
          | none => rw [hc2] at h2; simp at h2
          | some bs2 =>
            rw [hc2] at h2
            have hbs : bs2 = bs := ih hc hc2
            rw [← Option.some.inj h, ← Option.some.inj h2, hb, hbs]

theorem collectOption_both_agree {l : List Char} {vals w : List Nat}
    (h : collectOption (b32val false) l = some vals)
    (h2 : collectOption (b32val true) l = some w) :
    w = vals := by
  induction l generalizing vals w with
  | nil =>
    simp only [collectOption] at h h2
    rw [← Option.some.inj h, ← Option.some.inj h2]
  | cons x xs ih =>
    simp only [collectOption] at h h2
    cases hfx : b32val false x with
    | none => rw [hfx] at h; simp at h
    | some b =>
      rw [hfx] at h
      cases hfx2 : b32val true x with
      | none => rw [hfx2] at h2; simp at h2
      | some b2 =>
        rw [hfx2] at h2
        have hb : b2 = b := b32val_both_agree hfx hfx2
        cases hc : collectOption (b32val false) xs with
        | none => rw [hc] at h; simp at h
        | some bs =>
          rw [hc] at h
          cases hc2 : collectOption (b32val true) xs with
          | none => rw [hc2] at h2; simp at h2
          | some bs2 =>
            rw [hc2] at h2
            have hbs : bs2 = bs := ih hc hc2
            rw [← Option.some.inj h, ← Option.some.inj h2, hb, hbs]

/-! ## Claim C7: trimming and padding lemmas -/

theorem dropWhile_eq_self_of_all {p : Char → Bool} {cs : List Char}
    (h : ∀ c ∈ cs, p c = false) : cs.dropWhile p = cs := by
  cases cs with
  | nil => rfl
  | cons a t =>
    rw [List.dropWhile_cons, h a (by simp)]
    simp

theorem trimChars_eq_self {cs : List Char} (h : ∀ c ∈ cs, isWs c = false) :
    trimChars cs = cs := by
  unfold trimChars
  rw [dropWhile_eq_self_of_all h]
  rw [dropWhile_eq_self_of_all (fun c hc => h c (List.mem_reverse.mp hc))]
  exact List.reverse_reverse cs

theorem rustTrim_eq_self {s : String} (h : ∀ c ∈ s.data, isWs c = false) :
    rustTrim s = s := by
  unfold rustTrim
  rw [trimChars_eq_self h]

theorem takeWhile_pad_nil {cs : List Char} (h : ∀ c ∈ cs, c ≠ '=') :
    cs.takeWhile (fun c => c = '=') = [] := by
  cases cs with
  | nil => rfl
  | cons a t =>
    rw [List.takeWhile_cons]
    have := h a (by simp)
    simp [this]

theorem dropTrailingPad_eq_self {cs : List Char} (h : ∀ c ∈ cs, c ≠ '=') :
    dropTrailingPad cs = cs := by
  unfold dropTrailingPad
  rw [takeWhile_pad_nil (fun c hc => h c (List.mem_reverse.mp hc))]
  simp

theorem takeWhile_pad_append (k : Nat) {ys : List Char}
    (hys : ys.takeWhile (fun c => c = '=') = []) :
    (List.replicate k '=' ++ ys).takeWhile (fun c => c = '=') =
      List.replicate k '=' := by
  induction k with
  | zero => simpa using hys
  | succ n ih =>
    simp [List.replicate_succ, List.takeWhile_cons, ih]

theorem dropTrailingPad_append_pad {cs : List Char} {k : Nat} (hk : k ≤ 6)
    (h : ∀ c ∈ cs, c ≠ '=') :
    dropTrailingPad (cs ++ List.replicate k '=') = cs := by
  unfold dropTrailingPad
  rw [List.reverse_append, List.reverse_replicate]
  rw [takeWhile_pad_append k (takeWhile_pad_nil
    (fun c hc => h c (List.mem_reverse.mp hc)))]
  rw [List.length_replicate, Nat.min_eq_right hk]
  rw [List.drop_left' (List.length_replicate k '=')]
  exact List.reverse_reverse cs

/-! ## Claim C7: decode-level lemmas -/

theorem b32decode_unpad_eq (lower : Bool) (s : String) :
    b32decode lower false s =
      (collectOption (b32val lower) s.data).map (fun vals => b32bytes vals 0 0) := by
  simp only [b32decode, Bool.false_eq_true, if_false]
  cases collectOption (b32val lower) s.data <;> rfl

theorem b32decode_pad_eq (lower : Bool) (s : String) :
    b32decode lower true s =
      (collectOption (b32val lower) (dropTrailingPad s.data)).map
        (fun vals => b32bytes vals 0 0) := by
  simp only [b32decode, if_true]
  cases collectOption (b32val lower) (dropTrailingPad s.data) <;> rfl

/-- Unfold a successful unpadded decode into its value list. -/
theorem b32decode_unpad_some {lower : Bool} {s : String} {b : List Nat}
    (h : b32decode lower false s = some b) :
    ∃ vals, collectOption (b32val lower) s.data = some vals ∧
      b = b32bytes vals 0 0 := by
  rw [b32decode_unpad_eq] at h
  cases hc : collectOption (b32val lower) s.data with
  | none => rw [hc] at h; simp at h
  | some vals =>
    rw [hc] at h
    exact ⟨vals, rfl, (Option.some.inj h).symm⟩

/-- The four-branch try chain of decode_totp_secret, abstracted: if every
alphabet decodes the trimmed input to nothing or to b, and some alphabet
decodes it to b, the result is ok b. -/
theorem decode_totp_chain {t u : String} {b : List Nat}
    (htrim : rustTrim t = u)
    (h1 : b32decode false false u = none ∨ b32decode false false u = some b)
    (h2 : b32decode false true u = none ∨ b32decode false true u = some b)
    (h3 : b32decode true false u = none ∨ b32decode true false u = some b)
    (h4 : b32decode true true u = none ∨ b32decode true true u = some b)
    (hex : b32decode false false u = some b ∨ b32decode false true u = some b ∨
      b32decode true false u = some b ∨ b32decode true true u = some b) :
    decode_totp_secret t = .ok b := by
  simp only [decode_totp_secret, htrim]
  rcases h1 with h1 | h1
  · rw [h1]
    rcases h2 with h2 | h2
    · rw [h2]
      rcases h3 with h3 | h3
      · rw [h3]
        rcases h4 with h4 | h4
        · rcases hex with hx | hx | hx | hx
          · rw [h1] at hx; exact Option.noConfusion hx
          · rw [h2] at hx; exact Option.noConfusion hx
          · rw [h3] at hx; exact Option.noConfusion hx
          · rw [h4] at hx; exact Option.noConfusion hx
        · rw [h4]
      · rw [h3]
    · rw [h2]
  · rw [h1]

theorem b32val_pad_none (lower : Bool) : b32val lower '=' = none := by
  cases lower <;> decide

theorem b32decode_pad_of_no_pad {lower : Bool} {t : String}
    (h : ∀ c ∈ t.data, c ≠ '=') :
    b32decode lower true t = b32decode lower false t := by
  rw [b32decode_pad_eq, b32decode_unpad_eq, dropTrailingPad_eq_self h]

theorem trimChars_ws_wrap {cs : List Char} (h : ∀ c ∈ cs, isWs c = false) :
    trimChars (' ' :: (cs ++ ['\n'])) = cs := by
  cases cs with
  | nil => decide
  | cons a t =>
    have ha := h a (by simp)
    have h1 : List.dropWhile isWs (' ' :: ((a :: t) ++ ['\n'])) =
        (a :: t) ++ ['\n'] := by
      rw [List.dropWhile_cons]
      rw [show isWs ' ' = true from by decide]
      simp only [if_true]
      rw [List.cons_append, List.dropWhile_cons, ha]
      simp
    have h2 : List.dropWhile isWs ('\n' :: (t.reverse ++ [a])) =
        t.reverse ++ [a] := by
      rw [List.dropWhile_cons]
      rw [show isWs '\n' = true from by decide]
      simp only [if_true]
      refine dropWhile_eq_self_of_all ?_
      intro c hc
      apply h
      rcases List.mem_append.mp hc with hc | hc
      · exact List.mem_cons_of_mem a (List.mem_reverse.mp hc)
      · simp only [List.mem_singleton] at hc
        rw [hc]
        exact List.mem_cons_self a t
    unfold trimChars
    rw [h1, List.reverse_append]
    simp only [List.reverse_cons, List.reverse_nil, List.nil_append,
      List.singleton_append]
    rw [h2]
    simp

/-! ## Claim C7 -/

/-- C7: base32 secret decoding accepts all four encodings of the same
secret — RFC 4648 upper or lower case, padded (up to six padding characters)
or unpadded — and decodes each of them, after trimming leading and trailing
whitespace, to the same byte sequence; an input decodable under none of the
four alphabets is an error.  The secret is represented by any string s the
upper-case unpadded alphabet decodes; its lower-case form is strToLower s
and its padded variants append up to six padding characters; the
whitespace-wrapped form exercises the trim. -/
theorem decode_totp_secret_four_encodings :
    (∀ (s : String) (b : List Nat), b32decode false false s = some b →
      decode_totp_secret s = .ok b ∧
      decode_totp_secret (strToLower s) = .ok b ∧
      decode_totp_secret ⟨' ' :: (s.data ++ ['\n'])⟩ = .ok b ∧
      (∀ k : Nat, k ≤ 6 →
        decode_totp_secret ⟨s.data ++ List.replicate k '='⟩ = .ok b ∧
        decode_totp_secret ⟨s.data.map charLower ++ List.replicate k '='⟩ = .ok b)) ∧
    (∀ s : String,
      b32decode false false (rustTrim s) = none →
      b32decode false true (rustTrim s) = none →
      b32decode true false (rustTrim s) = none →
      b32decode true true (rustTrim s) = none →
      decode_totp_secret s = .error "totp secret was not valid base32") := by
  constructor
  · intro s b h
    obtain ⟨vals, hcol, hb⟩ := b32decode_unpad_some h
    have hvalid : ∀ c ∈ s.data, ∃ v, b32val false c = some v :=
      collectOption_mem_some hcol
    have hnws : ∀ c ∈ s.data, isWs c = false := fun c hc =>
      (hvalid c hc).elim (fun v hv => b32val_not_ws hv)
    have hnpad : ∀ c ∈ s.data, c ≠ '=' := fun c hc =>
      (hvalid c hc).elim (fun v hv => b32val_ne_pad hv)
    have hlowcol : collectOption (b32val true) (s.data.map charLower) = some vals :=
      collectOption_lower_map hcol
    have hlvalid : ∀ c ∈ s.data.map charLower, ∃ v, b32val true c = some v :=
      collectOption_mem_some hlowcol
    have hlnws : ∀ c ∈ s.data.map charLower, isWs c = false := fun c hc =>
      (hlvalid c hc).elim (fun v hv => b32val_not_ws hv)
    have hlnpad : ∀ c ∈ s.data.map charLower, c ≠ '=' := fun c hc =>
      (hlvalid c hc).elim (fun v hv => b32val_ne_pad hv)
    -- the lower alphabet on the original string: none or the same bytes
    have hlow_orig : b32decode true false s = none ∨ b32decode true false s = some b := by
      rw [b32decode_unpad_eq]
      cases hc : collectOption (b32val true) s.data with
      | none => left; rfl
      | some w =>
        right
        rw [collectOption_both_agree hcol hc, hb]
        rfl
    -- the upper alphabet on the lowered string: none or the same bytes
    have hsdata : (strToLower s).data = s.data.map charLower := rfl
    have hup_low : b32decode false false (strToLower s) = none ∨
        b32decode false false (strToLower s) = some b := by
      rw [b32decode_unpad_eq, hsdata]
      cases hc : collectOption (b32val false) (s.data.map charLower) with
      | none => left; rfl
      | some w =>
        right
        rw [collectOption_upper_map_agree hcol hc, hb]
        rfl
    -- the lower alphabet on the lowered string: the same bytes
    have hlow_low : b32decode true false (strToLower s) = some b := by
      rw [b32decode_unpad_eq, hsdata, hlowcol, hb]
      rfl
    refine ⟨?_, ?_, ?_, ?_⟩
    · -- the original string
      refine decode_totp_chain (rustTrim_eq_self hnws) (Or.inr h) ?_ hlow_orig ?_ (Or.inl h)
      · rw [b32decode_pad_of_no_pad hnpad]
        exact Or.inr h
      · rw [b32decode_pad_of_no_pad hnpad]
        exact hlow_orig
    · -- the lowered string
      have htriml : rustTrim (strToLower s) = strToLower s := rustTrim_eq_self hlnws
      have hlnpad2 : ∀ c ∈ (strToLower s).data, c ≠ '=' := fun c hc => hlnpad c hc
      refine decode_totp_chain htriml hup_low ?_ (Or.inr hlow_low) ?_
        (Or.inr (Or.inr (Or.inl hlow_low)))
      · rw [b32decode_pad_of_no_pad (t := strToLower s) hlnpad2]
        exact hup_low
      · rw [b32decode_pad_of_no_pad (t := strToLower s) hlnpad2]
        exact Or.inr hlow_low
    · -- the whitespace-wrapped string
      have htrimw : rustTrim ⟨' ' :: (s.data ++ ['\n'])⟩ = s := by
        unfold rustTrim
        show (⟨trimChars (' ' :: (s.data ++ ['\n']))⟩ : String) = s
        rw [trimChars_ws_wrap hnws]
      refine decode_totp_chain htrimw (Or.inr h) ?_ hlow_orig ?_ (Or.inl h)
      · rw [b32decode_pad_of_no_pad hnpad]
        exact Or.inr h
      · rw [b32decode_pad_of_no_pad hnpad]
        exact hlow_orig
    · -- the padded variants
      intro k hk
      constructor
      · -- upper case plus padding
        have hdata : (⟨s.data ++ List.replicate k '='⟩ : String).data =
            s.data ++ List.replicate k '=' := rfl
        have hmem : ∀ c ∈ s.data ++ List.replicate k '=', isWs c = false := by
          intro c hc
          rcases List.mem_append.mp hc with hc | hc
          · exact hnws c hc
          · rw [List.eq_of_mem_replicate hc]
            decide
        have hpadded : b32decode false true ⟨s.data ++ List.replicate k '='⟩ = some b := by
          rw [b32decode_pad_eq, hdata, dropTrailingPad_append_pad hk hnpad, hcol, hb]
          rfl
        have hpadded_low : b32decode true true ⟨s.data ++ List.replicate k '='⟩ = none ∨
            b32decode true true ⟨s.data ++ List.replicate k '='⟩ = some b := by
          rw [b32decode_pad_eq, hdata, dropTrailingPad_append_pad hk hnpad]
          cases hc : collectOption (b32val true) s.data with
          | none => left; rfl
          | some w =>
            right
            rw [collectOption_both_agree hcol hc, hb]
            rfl
        cases Nat.eq_zero_or_pos k with
        | inl hk0 =>
          subst hk0
          have hdata0 : (⟨s.data ++ List.replicate 0 '='⟩ : String).data = s.data := by
            simp
          refine decode_totp_chain (u := ⟨s.data ++ List.replicate 0 '='⟩)
            (rustTrim_eq_self (by rw [hdata0]; exact hnws)) ?_ (Or.inr hpadded) ?_
            hpadded_low (Or.inr (Or.inl hpadded))
          · rw [b32decode_unpad_eq, hdata0, hcol, hb]
            exact Or.inr rfl
          · rw [b32decode_unpad_eq, hdata0]
            rcases hlow_orig with hl | hl
            · rw [b32decode_unpad_eq] at hl
              exact Or.inl hl
            · rw [b32decode_unpad_eq] at hl
              exact Or.inr hl
        | inr hkpos =>
          have hpadmem : '=' ∈ (⟨s.data ++ List.replicate k '='⟩ : String).data := by
            rw [hdata]
            refine List.mem_append.mpr (Or.inr (List.mem_replicate.mpr ⟨?_, rfl⟩))
            omega
          have hnone : ∀ lower, b32decode lower false ⟨s.data ++ List.replicate k '='⟩ = none := by
            intro lower
            rw [b32decode_unpad_eq,
              collectOption_none_of_mem hpadmem (b32val_pad_none lower)]
            rfl
          exact decode_totp_chain (rustTrim_eq_self (by rw [hdata]; exact hmem))
            (Or.inl (hnone false)) (Or.inr hpadded) (Or.inl (hnone true))
            hpadded_low (Or.inr (Or.inl hpadded))
      · -- lower case plus padding
        have hdata : (⟨s.data.map charLower ++ List.replicate k '='⟩ : String).data =
            s.data.map charLower ++ List.replicate k '=' := rfl
        have hmem : ∀ c ∈ s.data.map charLower ++ List.replicate k '=', isWs c = false := by
          intro c hc
          rcases List.mem_append.mp hc with hc | hc
          · exact hlnws c hc
          · rw [List.eq_of_mem_replicate hc]
            decide
        have hpadded : b32decode true true ⟨s.data.map charLower ++ List.replicate k '='⟩ =
            some b := by
          rw [b32decode_pad_eq, hdata, dropTrailingPad_append_pad hk hlnpad, hlowcol, hb]
          rfl
        have hpadded_up : b32decode false true ⟨s.data.map charLower ++ List.replicate k '='⟩ = none ∨
            b32decode false true ⟨s.data.map charLower ++ List.replicate k '='⟩ = some b := by
          rw [b32decode_pad_eq, hdata, dropTrailingPad_append_pad hk hlnpad]
          cases hc : collectOption (b32val false) (s.data.map charLower) with
          | none => left; rfl
          | some w =>
            right
            rw [collectOption_upper_map_agree hcol hc, hb]
            rfl
        cases Nat.eq_zero_or_pos k with
        | inl hk0 =>
          subst hk0
          have hdata0 : (⟨s.data.map charLower ++ List.replicate 0 '='⟩ : String).data =
              s.data.map charLower := by
            simp
          refine decode_totp_chain
            (u := ⟨s.data.map charLower ++ List.replicate 0 '='⟩)
            (rustTrim_eq_self (by rw [hdata0]; exact hlnws)) ?_ hpadded_up ?_
            (Or.inr hpadded) (Or.inr (Or.inr (Or.inr hpadded)))
          · rw [b32decode_unpad_eq, hdata0]
            rcases hup_low with hl | hl
            · rw [b32decode_unpad_eq] at hl
              exact Or.inl hl
            · rw [b32decode_unpad_eq] at hl
              exact Or.inr hl
          · rw [b32decode_unpad_eq, hdata0, hlowcol, hb]
            exact Or.inr rfl
        | inr hkpos =>
          have hpadmem : '=' ∈ (⟨s.data.map charLower ++ List.replicate k '='⟩ : String).data := by
            rw [hdata]
            refine List.mem_append.mpr (Or.inr (List.mem_replicate.mpr ⟨?_, rfl⟩))
            omega
          have hnone : ∀ lower,
              b32decode lower false ⟨s.data.map charLower ++ List.replicate k '='⟩ = none := by
            intro lower
            rw [b32decode_unpad_eq,
              collectOption_none_of_mem hpadmem (b32val_pad_none lower)]
            rfl
          exact decode_totp_chain (rustTrim_eq_self (by rw [hdata]; exact hmem))
            (Or.inl (hnone false)) hpadded_up (Or.inl (hnone true))
            (Or.inr hpadded) (Or.inr (Or.inr (Or.inr hpadded)))
  · intro s h1 h2 h3 h4
    simp only [decode_totp_secret, h1, h2, h3, h4]

/-- Closed instance of C7 at the specification's concrete secret: the
upper-case, lower-case, whitespace-wrapped and fully padded forms all decode
to the same bytes. -/
theorem decode_totp_secret_four_encodings_witness :
    decode_totp_secret "JBSWY3DPEHPK3PXP" =
      .ok [72, 101, 108, 108, 111, 33, 222, 173, 190, 239] ∧
    decode_totp_secret (strToLower "JBSWY3DPEHPK3PXP") =
      .ok [72, 101, 108, 108, 111, 33, 222, 173, 190, 239] ∧
    decode_totp_secret ⟨' ' :: (("JBSWY3DPEHPK3PXP" : String).data ++ ['\n'])⟩ =
      .ok [72, 101, 108, 108, 111, 33, 222, 173, 190, 239] ∧
    decode_totp_secret ⟨("JBSWY3DPEHPK3PXP" : String).data ++ List.replicate 0 '='⟩ =
      .ok [72, 101, 108, 108, 111, 33, 222, 173, 190, 239] := by
  have h := decode_totp_secret_four_encodings.1 "JBSWY3DPEHPK3PXP"
    [72, 101, 108, 108, 111, 33, 222, 173, 190, 239] (by decide)
  exact ⟨h.1, h.2.1, h.2.2.1, (h.2.2.2 0 (by decide)).1⟩

end Rbw
